import Mathlib

/-!
# Verification of the redis-init schema-loading core

This development shallowly embeds the core of the `redis-init` repository
(schema parser, script-block extractor, dependency resolver, key-prefix
rewriter, transaction executor and pipelined batch executor) in Lean 4 and
proves the frozen claims about it.

Conventions of the embedding:
* JavaScript strings are Lean `String`s; all character-level operations are
  defined over `String.data` (a `List Char`) so that they can be reasoned
  about by induction.  JavaScript's Unicode-aware `trim`/`\s`/`toUpperCase`
  are modelled by `Char.isWhitespace`/`Char.toUpper`, which agree with them
  on ASCII input (schema files are ASCII per the spec).
* Fallible code is `Except`/`Option`; the command-executing collaborator
  (the Redis client) is external, so its behaviour is an explicit oracle
  argument (which commands fail to queue, which submissions throw, which
  per-command outcomes a transaction reports).
* A few functions that JavaScript runs by unbounded recursion are given a
  fuel parameter; in each case the call site passes fuel that is provably
  never exhausted (comments give the argument), so the embedding agrees
  with the source on every input reachable from the entry points.
-/

namespace RedisInit

/-! ## Character-list helpers (JS string primitives) -/

/-- The characters JS regex `.` refuses to match and that re-anchor `$`:
line terminators (after `split('\n')` a line can still contain `\r`,
U+2028 or U+2029, e.g. the `\r` of CRLF input). -/
def isLineTerm (c : Char) : Bool :=
  c = '\n' ∨ c = '\r' ∨ c = '\u2028' ∨ c = '\u2029'

/-- `line.replace(/#.*$/, '')`: without the `m` flag, `$` matches only at
end of input and `.` matches no line terminator, so the regex matches —
and the replacement deletes to end of input — exactly from the first `#`
after which no line-terminator character occurs (the first `#` of the
segment after the line's last line terminator); when every `#` is
followed by a line terminator the regex does not match and the line is
returned unchanged.  Escaping with a backslash plays no role. -/
def stripCommentL : List Char → List Char
  | [] => []
  | c :: cs =>
    if c = '#' ∧ cs.any isLineTerm = false then []
    else c :: stripCommentL cs

/-- A `#`-free prefix passes through comment stripping untouched. -/
theorem stripCommentL_append_no_hash {p : List Char} (hp : ∀ c ∈ p, c ≠ '#') :
    ∀ x, stripCommentL (p ++ x) = p ++ stripCommentL x := by
  induction p with
  | nil => intro x; simp
  | cons c cs ih =>
    intro x
    rw [List.cons_append, stripCommentL,
      if_neg (fun hand => hp c (List.mem_cons_self c cs) hand.1),
      ih (fun d hd => hp d (List.mem_cons_of_mem c hd)) x]
    rfl

/-- When every `#` of the line is followed by some line terminator, the
regex `/#.*$/` cannot match and stripping is the identity. -/
theorem stripCommentL_eq_self {l : List Char}
    (h : ∀ a b, l = a ++ '#' :: b → b.any isLineTerm = true) :
    stripCommentL l = l := by
  induction l with
  | nil => rfl
  | cons c cs ih =>
    have hcond : ¬(c = '#' ∧ cs.any isLineTerm = false) := by
      rintro ⟨rfl, hfalse⟩
      rw [h [] cs rfl] at hfalse
      cases hfalse
    rw [stripCommentL, if_neg hcond,
      ih (fun a b hab => h (c :: a) b (by rw [hab, List.cons_append]))]

/-- Trailing-whitespace removal, structurally recursive for easy proofs. -/
def dropTrailingWs : List Char → List Char
  | [] => []
  | c :: cs =>
    match dropTrailingWs cs with
    | [] => if c.isWhitespace then [] else [c]
    | r => c :: r

/-- JS `String.prototype.trim` (ASCII fragment). -/
def trimL (l : List Char) : List Char := dropTrailingWs (l.dropWhile Char.isWhitespace)

def trimStr (s : String) : String := ⟨trimL s.data⟩

/-- JS `split(sep)` on a single character, keeping empty pieces. -/
def splitOnCharAux (sep : Char) : List Char → List Char → List (List Char)
  | [], acc => [acc.reverse]
  | c :: cs, acc =>
    if c = sep then acc.reverse :: splitOnCharAux sep cs []
    else splitOnCharAux sep cs (c :: acc)

/-- JS `content.split('\n')`. -/
def splitLines (s : String) : List String :=
  (splitOnCharAux '\n' s.data []).map String.mk

/-- JS `s.startsWith(p)`. -/
def startsWithL (p l : List Char) : Bool := p.isPrefixOf l

/-- JS `s.endsWith(';')`. -/
def endsWithSemi (s : String) : Bool := s.data.getLast? = some ';'

/-- JS `s.toUpperCase()` (ASCII fragment). -/
def toUpperStr (s : String) : String := ⟨s.data.map Char.toUpper⟩

/-! ## Template Substitutor (`lib/templates.js`, `processTemplate`) -/

/-- A JS object used as a string-keyed map, modelled as an association
list; `variables[name] !== undefined` is membership.  An absent or
non-object `variables` argument is modelled by the empty list. -/
def lookupVar (vars : List (String × String)) (n : String) : Option String :=
  (vars.find? (fun p => p.1 = n)).map (·.2)

/-- Split a character list at its first closing brace: the run of
non-`\x7d` characters before it, and the remainder after it.  `none`
when no closing brace occurs. -/
def splitAtBrace : List Char → Option (List Char × List Char)
  | [] => none
  | c :: cs =>
    if c = '}' then some ([], cs)
    else (splitAtBrace cs).map (fun p => (c :: p.1, p.2))

theorem splitAtBrace_eq {l name tail : List Char}
    (h : splitAtBrace l = some (name, tail)) :
    l = name ++ '}' :: tail ∧ tail.length < l.length := by
  induction l generalizing name tail with
  | nil => simp [splitAtBrace] at h
  | cons c cs ih =>
    rw [splitAtBrace] at h
    split at h
    · next hc =>
      simp only [Option.some.injEq, Prod.mk.injEq] at h
      obtain ⟨h1, h2⟩ := h
      subst hc; subst h1; subst h2
      simp
    · cases hs : splitAtBrace cs with
      | none => rw [hs] at h; simp at h
      | some p =>
        obtain ⟨n', t'⟩ := p
        rw [hs] at h
        simp only [Option.map_some', Option.some.injEq, Prod.mk.injEq] at h
        obtain ⟨h1, h2⟩ := h
        obtain ⟨ih1, ih2⟩ := ih hs
        subst h2
        constructor
        · rw [← h1, ih1]; simp
        · simp only [List.length_cons]; omega

/-- One attempted match of the regex `\$\{([^}]+)\}` at the head of `l`:
the captured name (the non-empty run of non-`\x7d` characters after
`\$\x7b`) and the remainder after the closing brace. -/
def markerSplit (l : List Char) : Option (List Char × List Char) :=
  match l with
  | c1 :: c2 :: rest =>
    if c1 = '$' ∧ c2 = '{' then
      match splitAtBrace rest with
      | some (name, tail) => if name.isEmpty then none else some (name, tail)
      | none => none
    else none
  | _ => none

theorem markerSplit_eq {l : List Char} {name tail : List Char}
    (h : markerSplit l = some (name, tail)) :
    l = '$' :: '{' :: name ++ '}' :: tail ∧ tail.length + 2 < l.length := by
  match l with
  | [] => simp [markerSplit] at h
  | [c] => simp [markerSplit] at h
  | c1 :: c2 :: rest =>
    rw [markerSplit] at h
    split at h
    · next hc =>
      obtain ⟨hc1, hc2⟩ := hc
      subst hc1; subst hc2
      cases hs : splitAtBrace rest with
      | none => rw [hs] at h; exact absurd h (by simp)
      | some p =>
        obtain ⟨n', t'⟩ := p
        rw [hs] at h
        by_cases hne : n'.isEmpty
        · simp [hne] at h
        · simp only [hne, Bool.false_eq_true, if_false, Option.some.injEq,
            Prod.mk.injEq] at h
          obtain ⟨h1, h2⟩ := h
          subst h1; subst h2
          obtain ⟨he, hl⟩ := splitAtBrace_eq hs
          subst he
          refine ⟨by simp, ?_⟩
          simp only [List.length_cons, List.length_append]
          omega
    · exact absurd h (by simp)

theorem markerSplit_length {l : List Char} {name tail : List Char}
    (h : markerSplit l = some (name, tail)) : tail.length + 2 < l.length + 2 := by
  have := (markerSplit_eq h).2
  omega

/-- `content.replace(/\$\{([^}]+)\}/g, fn)`: a single left-to-right scan;
matched spans are replaced (the replacement is not rescanned), unmatched
characters are copied. -/
def substGo (vars : List (String × String)) (l : List Char) : List Char :=
  match h : l with
  | [] => []
  | c :: cs =>
    match hm : markerSplit (c :: cs) with
    | some (name, tail) =>
      (match lookupVar vars ⟨name⟩ with
       | some v => v.data
       | none => '$' :: '{' :: (name ++ '}' :: [])) ++ substGo vars tail
    | none => c :: substGo vars cs
termination_by l.length
decreasing_by
  · have := markerSplit_length hm
    simp only [List.length_cons] at this ⊢
    omega
  · simp

/-- `processTemplate(content, variables)` from `lib/templates.js`.
(The source parameter name `variables` is a reserved word in Lean,
so it is rendered `vars`.) -/
def processTemplate (content : String) (vars : List (String × String)) : String :=
  if vars.isEmpty then content else ⟨substGo vars content.data⟩

/-! Specification-side view of `processTemplate`, following the spec's words
("for every marker of the form `${NAME}` … replace … otherwise leave the
marker unchanged; a single left-to-right pass"): a text decomposes
left-to-right into literal characters and markers, and substitution renders
each chunk independently, never rescanning a rendered value. -/

inductive TChunk where
  | lit (c : Char)
  | marker (n : String)
deriving Repr, DecidableEq

/-- The unique greedy left-to-right decomposition of a text into literal
characters and `${NAME}` markers (spec-modelled notion of "marker"). -/
def scanChunks (l : List Char) : List TChunk :=
  match h : l with
  | [] => []
  | c :: cs =>
    match hm : markerSplit (c :: cs) with
    | some (name, tail) => .marker ⟨name⟩ :: scanChunks tail
    | none => .lit c :: scanChunks cs
termination_by l.length
decreasing_by
  · have := markerSplit_length hm
    simp only [List.length_cons] at this ⊢
    omega
  · simp

/-- Render a chunk list: a marker whose name is mapped becomes the mapped
value, any other marker is printed back verbatim; literals are copied. -/
def renderChunksL (vars : List (String × String)) : List TChunk → List Char
  | [] => []
  | .lit c :: rest => c :: renderChunksL vars rest
  | .marker n :: rest =>
    (match lookupVar vars n with
     | some v => v.data
     | none => '$' :: '{' :: (n.data ++ '}' :: [])) ++ renderChunksL vars rest

theorem substGo_eq_render (vars : List (String × String)) :
    ∀ (n : Nat) (l : List Char), l.length ≤ n →
      substGo vars l = renderChunksL vars (scanChunks l) := by
  intro n
  induction n with
  | zero =>
    intro l hl
    have : l = [] := List.length_eq_zero.mp (Nat.le_zero.mp hl)
    subst this
    rw [substGo, scanChunks]
    rfl
  | succ n ih =>
    intro l hl
    match l with
    | [] =>
      rw [substGo, scanChunks]
      rfl
    | c :: cs =>
      rw [substGo, scanChunks]
      cases hm : markerSplit (c :: cs) with
      | none =>
        simp only [renderChunksL]
        have : cs.length ≤ n := by
          simp only [List.length_cons] at hl
          omega
        rw [ih cs this]
      | some p =>
        obtain ⟨name, tail⟩ := p
        have hlen := markerSplit_length hm
        have : tail.length ≤ n := by
          simp only [List.length_cons] at hl hlen
          omega
        simp only [renderChunksL]
        rw [ih tail this]

theorem render_empty_inverse :
    ∀ (n : Nat) (l : List Char), l.length ≤ n →
      renderChunksL [] (scanChunks l) = l := by
  intro n
  induction n with
  | zero =>
    intro l hl
    have : l = [] := List.length_eq_zero.mp (Nat.le_zero.mp hl)
    subst this
    rw [scanChunks]
    rfl
  | succ n ih =>
    intro l hl
    match l with
    | [] =>
      rw [scanChunks]
      rfl
    | c :: cs =>
      rw [scanChunks]
      cases hm : markerSplit (c :: cs) with
      | none =>
        simp only [renderChunksL]
        have : cs.length ≤ n := by
          simp only [List.length_cons] at hl
          omega
        rw [ih cs this]
      | some p =>
        obtain ⟨name, tail⟩ := p
        have hlen := markerSplit_length hm
        have htl : tail.length ≤ n := by
          simp only [List.length_cons] at hl hlen
          omega
        simp only [renderChunksL, lookupVar, List.find?_nil, Option.map_none']
        rw [ih tail htl]
        -- recover the original text of the marker
        have := (markerSplit_eq hm).1
        rw [this]
        simp

/-- **C8** (`src/lib/security.js` second part = `lib/templates.js`,
`processTemplate`): for every text and variables mapping, `substitute`
replaces each `${NAME}` marker whose `NAME` is mapped by its value and
leaves every other marker and all other text unchanged, in a single
left-to-right pass that never rescans replaced values; an absent or empty
mapping yields the input unchanged.  Formally: the direct embedding of the
JS global-replace equals rendering the greedy left-to-right chunk
decomposition of the text (which replaces exactly the mapped markers and
copies everything else, without rescanning), the decomposition loses no
text, and the empty mapping is the identity. -/
theorem claim_C8_template_substitution (s : String) (vars : List (String × String)) :
    (processTemplate s vars).data = renderChunksL vars (scanChunks s.data)
    ∧ renderChunksL [] (scanChunks s.data) = s.data
    ∧ processTemplate s [] = s := by
  refine ⟨?_, ?_, ?_⟩
  · by_cases hv : vars.isEmpty
    · have hnil : vars = [] := by
        cases vars with
        | nil => rfl
        | cons a l => simp [List.isEmpty] at hv
      subst hnil
      simp only [processTemplate, List.isEmpty_nil, if_true]
      exact (render_empty_inverse s.data.length s.data le_rfl).symm
    · simp only [processTemplate, hv, Bool.false_eq_true, if_false]
      exact substGo_eq_render vars s.data.length s.data le_rfl
  · exact render_empty_inverse s.data.length s.data le_rfl
  · simp [processTemplate]

/-! ## Script Block Extractor (`lib/lua-scripts.js`, `parseSchemaForLuaScripts`) -/

/-- Relative index of the first line whose trimmed text is exactly
`END_SCRIPT`. -/
def findTermIdx : List String → Option Nat
  | [] => none
  | l :: ls =>
    if trimStr l = "END_SCRIPT" then some 0
    else (findTermIdx ls).map (· + 1)

/-- Absolute index of the terminator of a block opened at `i`: the loop
`for (let i = startIndex + 1; i < lines.length; i++)` breaking at the first
trimmed `END_SCRIPT` line. -/
def findEndScript (lines : List String) (i : Nat) : Option Nat :=
  (findTermIdx (lines.drop (i + 1))).map (· + (i + 1))

structure LuaScriptInfo where
  name : String
  script : String
  startIndex : Nat
  endIndex : Nat
deriving Repr, DecidableEq

/-- `parseSchemaForLuaScripts(lines, startIndex)` from `lib/lua-scripts.js`.
It inspects the *raw* (unstripped, untrimmed) line at `startIndex`; the
falsy check `!lines[startIndex]` coincides with `startsWith` failing on the
empty string, so it needs no separate branch. -/
def parseSchemaForLuaScripts (lines : List String) (startIndex : Nat) : Option LuaScriptInfo :=
  match lines[startIndex]? with
  | none => none
  | some l =>
    if startsWithL "SCRIPT:".data l.data then
      let scriptName := trimStr ⟨l.data.drop 7⟩
      if scriptName = "" then none
      else
        match findEndScript lines startIndex with
        | none => none
        | some e =>
          some ⟨scriptName,
            String.intercalate "\n" ((lines.drop (startIndex + 1)).take (e - (startIndex + 1))),
            startIndex, e⟩
    else none

/-! ## Schema Parser (`lib/schema-loader.js`, `parseSchemaContent`) -/

/-- Strip surrounding double quotes from a fully quoted token
(`currentPart.slice(1, -1)` under the guard in the source). -/
def stripQuotes (p : List Char) : List Char :=
  if p.head? = some '"' ∧ p.getLast? = some '"' ∧ 1 < p.length
  then (p.drop 1).dropLast else p

/-- The character loop of `parseSchemaContent` tokenizing one accumulated
command string: split on spaces outside double-quoted spans; a quote
toggles quote state unless immediately preceded by a backslash; quotes are
kept while scanning and stripped from fully quoted tokens at flush time. -/
def tokenizeGo : List Char → Option Char → Bool → List Char → List (List Char) → List (List Char)
  | [], _, _, cur, parts => if cur.isEmpty then parts else parts ++ [stripQuotes cur]
  | c :: cs, prev, inQ, cur, parts =>
    let inQ2 := if c = '"' ∧ prev ≠ some '\\' then !inQ else inQ
    if c = ' ' ∧ inQ2 = false then
      if cur.isEmpty then tokenizeGo cs (some c) inQ2 cur parts
      else tokenizeGo cs (some c) inQ2 [] (parts ++ [stripQuotes cur])
    else tokenizeGo cs (some c) inQ2 (cur ++ [c]) parts

def tokenize (s : String) : List String := (tokenizeGo s.data none false [] []).map String.mk

/-- Remainder after the first occurrence of the literal `lit` as a
substring (leftmost regex match of the literal part). -/
def findAfterLit (lit : List Char) : List Char → Option (List Char)
  | [] => none
  | c :: cs =>
    if startsWithL lit (c :: cs) then some ((c :: cs).drop lit.length)
    else findAfterLit lit cs

/-- JS regex `\s*(.*)`: greedy whitespace (which may cross newlines!)
followed by the capture `(.*)` whose `.` excludes line terminators. -/
def captureAfterWs (rest : List Char) : List Char :=
  (rest.dropWhile Char.isWhitespace).takeWhile (fun c => c ≠ '\n' ∧ c ≠ '\r')

/-- The capture of the first match of `/dependencies:\s*(.*)/`. -/
def dependenciesCapture (content : String) : Option String :=
  (findAfterLit "dependencies:".data content.data).map (fun r => ⟨captureAfterWs r⟩)

/-- The capture of the first match of `/description:\s*(.*)/`. -/
def descriptionCapture (content : String) : Option String :=
  (findAfterLit "description:".data content.data).map (fun r => ⟨captureAfterWs r⟩)

/-- Value of the first match of `/version:\s*(\d+)/`: the whole regex must
match, so the scan continues past occurrences of the literal that are not
followed (after whitespace) by a digit. -/
def versionSearch : List Char → Option Nat
  | [] => none
  | c :: cs =>
    if startsWithL "version:".data (c :: cs) then
      let digits := (((c :: cs).drop 8).dropWhile Char.isWhitespace).takeWhile Char.isDigit
      if digits.isEmpty then versionSearch cs
      else some (digits.foldl (fun n d => n * 10 + (d.toNat - '0'.toNat)) 0)
    else versionSearch cs

/-- `split(/\s*,\s*/).map(d => d.trim())`: every separator contains exactly
one comma, and whitespace adjacent to commas is removed either by `\s*` or
by the per-piece `trim`, so this equals splitting on `,` and trimming. -/
def splitCommasTrim (s : String) : List String :=
  (splitOnCharAux ',' s.data []).map (fun l => trimStr ⟨l⟩)

structure SchemaMetadata where
  version : Nat
  description : String
  dependencies : List String
deriving Repr, DecidableEq

/-- Accumulator of the main line loop: emitted commands, plus the indices
of every line pushed into `currentCommand` (instrumentation recording the
provenance of command text; every token of every emitted command derives
from lines in `consumed`). -/
structure ParseAcc where
  commands : List (List String)
  consumed : List Nat
deriving Repr, DecidableEq

/-- The `for (let i = 0; i < lines.length; i++)` loop of
`parseSchemaContent`, with `skipToLine` as `skip` and `currentCommand` as
`cur`.  `fuel` mirrors the loop bound: it is called with
`fuel = lines.length` and `i = 0`, and both termination conditions coincide
(each iteration increments `i` by exactly one), so the `fuel = 0` branch
fires exactly when `i = lines.length`. -/
def parseLoopF (lines : List String) : Nat → Nat → Nat → List String → ParseAcc → ParseAcc
  | 0, _, _, _, acc => acc
  | fuel + 1, i, skip, cur, acc =>
    if _h : i < lines.length then
      if skip > i then parseLoopF lines fuel (i + 1) skip cur acc
      else
        let line := trimStr ⟨stripCommentL (lines.getD i "").data⟩
        if line = "" then parseLoopF lines fuel (i + 1) skip cur acc
        else if startsWithL "SCRIPT:".data line.data then
          match parseSchemaForLuaScripts lines i with
          | some r => parseLoopF lines fuel (i + 1) (r.endIndex + 1) cur acc
          | none =>
            let cur2 := cur ++ [line]
            let acc2 : ParseAcc := { acc with consumed := acc.consumed ++ [i] }
            if endsWithSemi line then
              let parts := tokenize ⟨(String.intercalate " " cur2).data.dropLast⟩
              parseLoopF lines fuel (i + 1) skip []
                (if parts.isEmpty then acc2
                 else { acc2 with commands := acc2.commands ++ [parts] })
            else parseLoopF lines fuel (i + 1) skip cur2 acc2
        else
          let cur2 := cur ++ [line]
          let acc2 : ParseAcc := { acc with consumed := acc.consumed ++ [i] }
          if endsWithSemi line then
            let parts := tokenize ⟨(String.intercalate " " cur2).data.dropLast⟩
            parseLoopF lines fuel (i + 1) skip []
              (if parts.isEmpty then acc2
               else { acc2 with commands := acc2.commands ++ [parts] })
          else parseLoopF lines fuel (i + 1) skip cur2 acc2
    else acc

structure ParseResult where
  commands : List (List String)
  metadata : SchemaMetadata
deriving Repr, DecidableEq

/-- `parseSchemaContent(content, sourceName, config)` from
`lib/schema-loader.js`.  `sourceName` is used only for logging and is
dropped; `config.variables` is the association list `vars`.  The top-level
`try`/`catch` is not modelled because no step of the pure embedding can
throw.  Metadata is extracted from the original content (before template
substitution), exactly as in the source. -/
def parseSchemaContent (content : String) (vars : List (String × String)) : ParseResult :=
  let metadata : SchemaMetadata :=
    { version := (versionSearch content.data).getD 1
      description := ((descriptionCapture content).map trimStr).getD ""
      dependencies :=
        match dependenciesCapture content with
        | some s => splitCommasTrim s
        | none => [] }
  let lines := splitLines (processTemplate content vars)
  { commands := (parseLoopF lines lines.length 0 0 [] ⟨[], []⟩).commands
    metadata := metadata }

/-- **C4** (`parseSchemaContent`): parsing the two-line example yields
exactly the two tokenized commands, with surrounding double quotes
stripped from quoted tokens. -/
theorem claim_C4_parse_example :
    (parseSchemaContent
        "SET key1 \"value1\";\nHSET hash1 field1 \"value1\" field2 \"value2\";"
        []).commands
      = [["SET", "key1", "value1"],
         ["HSET", "hash1", "field1", "value1", "field2", "value2"]] := by
  decide

/-! ## Key Prefix Rewriter (`lib/utils.js`, `applyPrefixToCommand`) -/

/-- The `firstArgKeyCommands` table from `lib/utils.js` (verbatim). -/
def firstArgKeyCommands : List String :=
  ["APPEND", "DECR", "DECRBY", "DEL", "EXISTS", "EXPIRE", "EXPIREAT",
   "GET", "GETBIT", "GETRANGE", "GETSET", "HDEL", "HEXISTS", "HGET",
   "HGETALL", "HINCRBY", "HINCRBYFLOAT", "HKEYS", "HLEN", "HMGET",
   "HMSET", "HSET", "HSETNX", "HSTRLEN", "HVALS", "INCR", "INCRBY",
   "INCRBYFLOAT", "LINDEX", "LINSERT", "LLEN", "LPOP", "LPUSH",
   "LPUSHX", "LRANGE", "LREM", "LSET", "LTRIM", "PERSIST", "PEXPIRE",
   "PEXPIREAT", "PSETEX", "PTTL", "RENAME", "RENAMENX", "RPOP", "RPUSH",
   "RPUSHX", "SADD", "SCARD", "SDIFF", "SDIFFSTORE", "SET", "SETBIT",
   "SETEX", "SETNX", "SETRANGE", "SINTER", "SINTERSTORE", "SISMEMBER",
   "SMEMBERS", "SMOVE", "SPOP", "SRANDMEMBER", "SREM", "STRLEN",
   "SUNION", "SUNIONSTORE", "TTL", "TYPE", "ZADD", "ZCARD", "ZCOUNT",
   "ZINCRBY", "ZINTERSTORE", "ZLEXCOUNT", "ZRANGE", "ZRANGEBYLEX",
   "ZRANGEBYSCORE", "ZRANK", "ZREM", "ZREMRANGEBYLEX", "ZREMRANGEBYRANK",
   "ZREMRANGEBYSCORE", "ZREVRANGE", "ZREVRANGEBYLEX", "ZREVRANGEBYSCORE",
   "ZREVRANK", "ZSCORE", "ZUNIONSTORE"]

/-- The verbs handled by the `switch` statement in `applyPrefixToCommand`
(the non-default rewrite families). -/
def specialCaseCommands : List String :=
  ["MSET", "MSETNX", "MGET", "RENAME", "RENAMENX", "SCAN", "EVALSHA", "EVAL"]

/-- `MSET`/`MSETNX`: prefix every even-indexed argument
(`for (let i = 0; i < args.length; i += 2)`). -/
def prefixPaired (pfx : String) : List String → List String
  | [] => []
  | [k] => [pfx ++ k]
  | k :: v :: rest => (pfx ++ k) :: v :: prefixPaired pfx rest

/-- `RENAME`/`RENAMENX`: prefix the first two arguments when there are at
least two (`if (args.length >= 2)`). -/
def prefixFirstTwo (pfx : String) : List String → List String
  | a :: b :: rest => (pfx ++ a) :: (pfx ++ b) :: rest
  | other => other

/-- `args[i+1].includes('*') || ... '?' ... '['`. -/
def containsGlob (s : String) : Bool :=
  s.data.any (fun c => c = '*' ∨ c = '?' ∨ c = '[')

/-- The `SCAN` loop body from index 1 on: find the first `MATCH` marker
that is followed by another argument, prefix that argument unless it
contains a glob metacharacter, then stop. -/
def scanMatchGo (pfx : String) : List String → List String
  | [] => []
  | [x] => [x]
  | x :: y :: rest =>
    if toUpperStr x = "MATCH" then
      x :: (if containsGlob y then y else pfx ++ y) :: rest
    else x :: scanMatchGo pfx (y :: rest)

/-- `SCAN`: the loop starts at `i = 1`, so the first argument (the cursor)
is never inspected. -/
def scanPrefix (pfx : String) (args : List String) : List String :=
  match args with
  | [] => []
  | c0 :: rest => c0 :: scanMatchGo pfx rest

/-- JS `parseInt(s, 10)`: optional leading whitespace, optional sign,
leading decimal digits; `NaN` (here `none`) when no digit follows. -/
def jsParseInt (s : String) : Option Int :=
  let l := s.data.dropWhile Char.isWhitespace
  let core : List Char → Option Nat := fun r =>
    let ds := r.takeWhile Char.isDigit
    if ds.isEmpty then none
    else some (ds.foldl (fun n d => n * 10 + (d.toNat - '0'.toNat)) 0)
  match l with
  | '-' :: r => (core r).map (fun n => -(n : Int))
  | '+' :: r => (core r).map (fun n => (n : Int))
  | r => (core r).map (fun n => (n : Int))

/-- Prefix the arguments with indices in `[lo, hi)` (0-based). -/
def prefixFromTo (pfx : String) (lo hi : Nat) : Nat → List String → List String
  | _, [] => []
  | i, a :: rest =>
    (if lo ≤ i ∧ i < hi then pfx ++ a else a) :: prefixFromTo pfx lo hi (i + 1) rest

/-- `EVAL`/`EVALSHA`: the second argument is a numeric key count; prefix
exactly that many arguments starting at index 2. -/
def evalPrefix (pfx : String) (args : List String) : List String :=
  if 2 ≤ args.length then
    match jsParseInt (args.getD 1 "") with
    | some kc =>
      if 0 < kc then prefixFromTo pfx 2 (2 + kc.toNat) 0 args else args
    | none => args
  else args

/-- `applyPrefixToCommand(command, prefix)` from `lib/utils.js`.
(The source parameter name `prefix` is reserved in Lean; it is rendered
`pfx`.) -/
def applyPrefixToCommand (command : List String) (pfx : String) : List String :=
  if pfx.length = 0 ∨ command.length = 0 then command
  else
    match command with
    | [] => command
    | verb :: args0 =>
      let cmd := toUpperStr verb
      let args :=
        if cmd = "MSET" ∨ cmd = "MSETNX" then prefixPaired pfx args0
        else if cmd = "MGET" then args0.map (fun a => pfx ++ a)
        else if cmd = "RENAME" ∨ cmd = "RENAMENX" then prefixFirstTwo pfx args0
        else if cmd = "SCAN" then scanPrefix pfx args0
        else if cmd = "EVALSHA" ∨ cmd = "EVAL" then evalPrefix pfx args0
        else if cmd ∈ firstArgKeyCommands ∧ ¬args0.isEmpty then
          match args0 with
          | [] => args0
          | a :: rest => (pfx ++ a) :: rest
        else args0
      cmd :: args

/-- **C6, counterexample**: the claim says a command whose verb belongs to
no rewrite family is returned with *every token, including the verb, equal
to the input*; but `applyPrefixToCommand` upper-cases the verb
unconditionally, so `["foo", "x"]` with prefix `"p:"` comes back as
`["FOO", "x"]`, not unmodified. -/
theorem claim_C6_counterexample :
    applyPrefixToCommand ["foo", "x"] "p:" ≠ ["foo", "x"] := by
  decide

/-- **C6, amended** (`applyPrefixToCommand`): for every non-empty prefix
and non-empty command whose upper-cased verb belongs to none of the
enumerated rewrite families, the command is returned with all arguments
unchanged and the verb normalized to upper case (hence unmodified exactly
when the verb is already upper case). -/
theorem claim_C6_unknown_verb (verb : String) (args : List String) (pfx : String)
    (hp : pfx ≠ "")
    (h1 : toUpperStr verb ∉ firstArgKeyCommands)
    (h2 : toUpperStr verb ∉ specialCaseCommands) :
    applyPrefixToCommand (verb :: args) pfx = toUpperStr verb :: args := by
  have hplen : ¬(pfx.length = 0 ∨ (verb :: args).length = 0) := by
    push_neg
    constructor
    · intro hlen
      exact hp (by
        cases pfx with
        | mk d => cases d with
          | nil => rfl
          | cons c cs => simp [String.length, List.length] at hlen)
    · simp
  rw [applyPrefixToCommand.eq_def, if_neg hplen]
  simp only [specialCaseCommands, List.mem_cons, List.mem_singleton, not_or] at h2
  obtain ⟨n1, n2, n3, n4, n5, n6, n7, n8⟩ := h2
  simp only [n1, n2, n3, n4, n5, n6, n7, n8, h1, or_self, if_false, false_and,
    List.not_mem_nil, or_false]

/-- **C6 witness**: `PING` (already upper case, in no family) is returned
untouched. -/
theorem claim_C6_unknown_verb_witness :
    applyPrefixToCommand ["PING", "x"] "p:" = ["PING", "x"] := by
  have h := claim_C6_unknown_verb "PING" ["x"] "p:"
    (by decide) (by decide) (by decide)
  rw [h]
  decide

/-! ## Transaction executor (`lib/transactions.js`, `executeInTransaction`)

The Redis client is external: its behaviour is an oracle.  `queueFails n`
says whether the `n`-th `multi.sendCommand` call throws (and with what
message); `execResult` is what `multi.exec()` does — throw, or resolve
with one reported outcome per queued command (`results[i] instanceof
Error` is `TxnOutcome.err`). -/

inductive TxnOutcome where
  | ok
  | err (msg : String)
deriving Repr, DecidableEq

structure TxnErrorEntry where
  index : Nat
  command : String
  error : String
deriving Repr, DecidableEq

/-- The ad-hoc result objects of `executeInTransaction`; absent JS fields
are `none`/`[]`. -/
structure TxnResult where
  success : Bool
  commandsExecuted : Option Nat
  error : Option String
  errors : List TxnErrorEntry
deriving Repr, DecidableEq

/-- The queueing loop: skip empty commands, upper-case the verb, count
`sendCommand` attempts; a throw aborts the whole call.  Returns the queued
commands and the attempt count. -/
def queueTxnCommands (queueFails : Nat → Option String) :
    List (List String) → Nat → Except String (List (List String))
  | [], _ => .ok []
  | c :: cs, n =>
    if c.length = 0 then queueTxnCommands queueFails cs n
    else
      match queueFails n with
      | some m => .error m
      | none =>
        match c with
        | [] => queueTxnCommands queueFails cs (n + 1)
        | v :: rest =>
          (queueTxnCommands queueFails cs (n + 1)).map
            (fun q => (toUpperStr v :: rest) :: q)

/-- The error-collection loop over `results`: entry `i` reads
`commands[i]` — against the *original* command list — and JS would throw
(`.join` on `undefined`) if `results` were longer than `commands`; that
throw is the `.error` case, landing in the outer `catch`. -/
def collectTxnErrors (commands : List (List String)) :
    List TxnOutcome → Nat → Except Unit (List TxnErrorEntry)
  | [], _ => .ok []
  | r :: rs, i =>
    match r with
    | .ok => collectTxnErrors commands rs (i + 1)
    | .err m =>
      match commands[i]? with
      | none => .error ()
      | some c =>
        (collectTxnErrors commands rs (i + 1)).map
          (fun es => ⟨i, String.intercalate " " c, m⟩ :: es)

/-- `executeInTransaction(client, commands, config)` from
`lib/transactions.js`. -/
def executeInTransaction (commands : List (List String))
    (queueFails : Nat → Option String)
    (execResult : Except String (List TxnOutcome)) : TxnResult :=
  if commands.length = 0 then ⟨true, some 0, none, []⟩
  else
    match queueTxnCommands queueFails commands 0 with
    | .error m =>
      ⟨false, none, some ("Failed to add command to transaction: " ++ m), []⟩
    | .ok _ =>
      match execResult with
      | .error m => ⟨false, none, some m, []⟩
      | .ok results =>
        match collectTxnErrors commands results 0 with
        | .error _ =>
          -- the JS TypeError from `commands[i].join` lands in the catch
          ⟨false, none, some "TypeError", []⟩
        | .ok errors =>
          if 0 < errors.length then
            ⟨false, none,
             some ("Transaction had " ++ toString errors.length ++ " errors"),
             errors⟩
          else ⟨true, some commands.length, none, []⟩

/-- The commands actually submitted by one `executeInTransaction` call:
`some queued` exactly when `multi.exec()` is reached. -/
def txnSubmission (commands : List (List String))
    (queueFails : Nat → Option String) : Option (List (List String)) :=
  if commands.length = 0 then none
  else
    match queueTxnCommands queueFails commands 0 with
    | .error _ => none
    | .ok q => some q

/-- **C2** (`executeInTransaction`): with three submitted commands of
which the collaborator reports exactly the 2nd as failed (and the others
as succeeded), the result has `success = false` and exactly one error
entry, whose index (1, 0-based — the 2nd command) and command text
reference that failed command. -/
theorem claim_C2_transaction_single_failure
    (v1 v2 v3 : String) (a1 a2 a3 : List String) (m : String) :
    executeInTransaction [v1 :: a1, v2 :: a2, v3 :: a3]
        (fun _ => none) (.ok [.ok, .err m, .ok])
      = ⟨false, none, some "Transaction had 1 errors",
         [⟨1, String.intercalate " " (v2 :: a2), m⟩]⟩ := by
  simp [executeInTransaction, queueTxnCommands, collectTxnErrors, Except.map]
  decide

/-! ## Pipelined executor (the non-transaction branch of `loadSchemas`,
`lib/schema-loader.js` lines 296–344)

The collaborator oracle: `queueFails n` — whether the `n`-th
`pipeline.sendCommand` attempt of this file throws; `execFails b` —
whether the `b`-th `pipeline.exec()` of this file rejects; `results` —
the per-command outcomes a resolved `exec` reports, which the source
*discards* (the resolved value of `await pipeline.exec()` is never
inspected). -/

structure PipeOracle where
  queueFails : Nat → Bool
  execFails : Nat → Bool
  results : Nat → Nat → TxnOutcome

structure PipeState where
  queueAttempts : Nat
  execAttempts : Nat
  commandsExecuted : Nat
  errorCount : Nat
  submissions : List (List (List String))
deriving Repr, DecidableEq

def pipeInit : PipeState := ⟨0, 0, 0, 0, []⟩

/-- The inner `for (const command of batch)` loop: skip empty commands,
apply the prefix when configured, upper-case the verb, queue into the
pipeline; a throw during preparation/queueing increments the error count
and moves on. Returns the updated state and the queued pipeline. -/
def queueBatch (pfx : String) (o : PipeOracle) :
    List (List String) → PipeState → List (List String) →
    PipeState × List (List String)
  | [], st, pl => (st, pl)
  | c :: cs, st, pl =>
    if c.length = 0 then queueBatch pfx o cs st pl
    else
      let c2 := if pfx ≠ "" then applyPrefixToCommand c pfx else c
      let qc := match c2 with
        | [] => []
        | v :: rest => toUpperStr v :: rest
      if o.queueFails st.queueAttempts then
        queueBatch pfx o cs
          { st with queueAttempts := st.queueAttempts + 1,
                    errorCount := st.errorCount + 1 } pl
      else
        queueBatch pfx o cs
          { st with queueAttempts := st.queueAttempts + 1 } (pl ++ [qc])

/-- One batch: queue all commands, then `await pipeline.exec()`; on
resolution the counter grows by the *full batch length* (the resolved
per-command outcomes are discarded), on rejection the error count grows
by one and the executed counter is untouched.  The `exec` call itself is
the submission, recorded either way. -/
def processOneBatch (pfx : String) (o : PipeOracle)
    (batch : List (List String)) (st : PipeState) : PipeState :=
  let (st1, pl) := queueBatch pfx o batch st []
  if o.execFails st1.execAttempts then
    { st1 with execAttempts := st1.execAttempts + 1,
               errorCount := st1.errorCount + 1,
               submissions := st1.submissions ++ [pl] }
  else
    { st1 with execAttempts := st1.execAttempts + 1,
               commandsExecuted := st1.commandsExecuted + batch.length,
               submissions := st1.submissions ++ [pl] }

/-- `commands.slice(i, i + batchSize)` for `i = 0, bs, 2·bs, …`. -/
def chunksOf (bs : Nat) (l : List (List String)) : List (List (List String)) :=
  match bs, l with
  | _, [] => []
  | 0, l => [l]   -- unreachable: `config.batchSize || 100` is never 0
  | b + 1, x :: xs => ((x :: xs).take (b + 1)) :: chunksOf (b + 1) ((x :: xs).drop (b + 1))
termination_by l.length
decreasing_by
  simp only [List.length_drop, List.length_cons]
  omega

/-- The batching loop `for (let i = 0; i < commands.length; i += batchSize)`
with `batchSize = config.batchSize || 100`. -/
def processBatches (pfx : String) (batchSize : Nat)
    (commands : List (List String)) (o : PipeOracle) (st : PipeState) : PipeState :=
  (chunksOf (if batchSize = 0 then 100 else batchSize) commands).foldl
    (fun s b => processOneBatch pfx o b s) st

/-- **C3** (pipelined branch of `loadSchemas`): with `batchSize = 2` over
five commands, exactly three batches — of sizes 2, 2, 1, in command
order — are submitted; a rejection of the 2nd batch's `exec` increments
the error count but the 3rd batch is still submitted (its commands are
counted as executed). -/
theorem claim_C3_batching_failure_isolation
    (v0 v1 v2 v3 v4 : String) (a0 a1 a2 a3 a4 : List String)
    (res : Nat → Nat → TxnOutcome) :
    let o : PipeOracle := ⟨fun _ => false, fun b => b = 1, res⟩
    let st := processBatches "" 2
      [v0 :: a0, v1 :: a1, v2 :: a2, v3 :: a3, v4 :: a4] o pipeInit
    st.submissions =
        [[toUpperStr v0 :: a0, toUpperStr v1 :: a1],
         [toUpperStr v2 :: a2, toUpperStr v3 :: a3],
         [toUpperStr v4 :: a4]]
      ∧ st.errorCount = 1 ∧ st.commandsExecuted = 3 := by
  intro o st
  refine ⟨?_, ?_, ?_⟩ <;>
    simp [st, o, processBatches, chunksOf, processOneBatch, queueBatch, pipeInit]

/-- Number of queueing attempts in a batch that throw, starting from
attempt counter `n` (empty commands are skipped without an attempt). -/
def queueFailCount (qf : Nat → Bool) : List (List String) → Nat → Nat
  | [], _ => 0
  | c :: cs, n =>
    if c.length = 0 then queueFailCount qf cs n
    else (if qf n then 1 else 0) + queueFailCount qf cs (n + 1)

theorem queueBatch_spec (pfx : String) (o : PipeOracle)
    (batch : List (List String)) (st : PipeState) (pl : List (List String)) :
    (queueBatch pfx o batch st pl).1.errorCount
        = st.errorCount + queueFailCount o.queueFails batch st.queueAttempts
    ∧ (queueBatch pfx o batch st pl).1.execAttempts = st.execAttempts
    ∧ (queueBatch pfx o batch st pl).1.commandsExecuted = st.commandsExecuted
    ∧ (queueBatch pfx o batch st pl).1.submissions = st.submissions := by
  induction batch generalizing st pl with
  | nil => simp [queueBatch, queueFailCount]
  | cons c cs ih =>
    rw [queueBatch, queueFailCount]
    by_cases hc : c.length = 0
    · simp only [hc, if_true]
      exact ih st pl
    · simp only [hc, if_false]
      by_cases hq : o.queueFails st.queueAttempts
      · simp only [hq, if_true]
        have h := ih { st with queueAttempts := st.queueAttempts + 1,
                               errorCount := st.errorCount + 1 } pl
        refine ⟨?_, h.2.1, h.2.2.1, h.2.2.2⟩
        rw [h.1]
        dsimp only
        omega
      · simp only [hq, Bool.false_eq_true, if_false]
        refine ⟨?_, (ih _ _).2.1, (ih _ _).2.2.1, (ih _ _).2.2.2⟩
        rw [(ih _ _).1]
        dsimp only
        omega

theorem queueBatch_oracle_independent (pfx : String) (o o2 : PipeOracle)
    (hq : o.queueFails = o2.queueFails)
    (batch : List (List String)) (st : PipeState) (pl : List (List String)) :
    queueBatch pfx o batch st pl = queueBatch pfx o2 batch st pl := by
  induction batch generalizing st pl with
  | nil => simp [queueBatch]
  | cons c cs ih =>
    rw [queueBatch, queueBatch, hq]
    by_cases hc : c.length = 0
    · simp only [hc, if_true]; exact ih st pl
    · simp only [hc, if_false]
      by_cases hf : o2.queueFails st.queueAttempts <;> simp only [hf, if_true, if_false] <;>
        exact ih _ _

/-- **C9** (pipelined branch of `loadSchemas`): per-command outcomes of a
batch whose `exec` resolves are ignored — the executed counter grows by
the full batch length and the error count only by the number of queueing
throws; in general the error count grows only through queueing throws and
`exec` rejections; and the whole step is independent of the per-command
`results` the collaborator reports. -/
theorem claim_C9_resolved_batch_outcomes_ignored (pfx : String)
    (o : PipeOracle) (batch : List (List String)) (st : PipeState) :
    (o.execFails st.execAttempts = false →
        (processOneBatch pfx o batch st).commandsExecuted
            = st.commandsExecuted + batch.length
        ∧ (processOneBatch pfx o batch st).errorCount
            = st.errorCount + queueFailCount o.queueFails batch st.queueAttempts)
    ∧ (processOneBatch pfx o batch st).errorCount
        = st.errorCount + queueFailCount o.queueFails batch st.queueAttempts
          + (if o.execFails st.execAttempts then 1 else 0)
    ∧ (∀ o2 : PipeOracle, o2.queueFails = o.queueFails → o2.execFails = o.execFails →
        processOneBatch pfx o2 batch st = processOneBatch pfx o batch st) := by
  obtain ⟨h1, h2, h3, h4⟩ := queueBatch_spec pfx o batch st []
  refine ⟨?_, ?_, ?_⟩
  · intro hex
    have hcond : o.execFails (queueBatch pfx o batch st []).1.execAttempts = false := by
      rw [h2]; exact hex
    simp only [processOneBatch, hcond, Bool.false_eq_true, if_false]
    exact ⟨by rw [h3], by rw [h1]⟩
  · cases hex : o.execFails st.execAttempts with
    | true =>
      have hcond : o.execFails (queueBatch pfx o batch st []).1.execAttempts = true := by
        rw [h2]; exact hex
      simp only [processOneBatch, hcond, if_true]
      rw [h1]
    | false =>
      have hcond : o.execFails (queueBatch pfx o batch st []).1.execAttempts = false := by
        rw [h2]; exact hex
      simp only [processOneBatch, hcond, Bool.false_eq_true, if_false]
      rw [h1]
      omega
  · intro o2 hq hex
    rw [processOneBatch, processOneBatch,
      queueBatch_oracle_independent pfx o2 o hq batch st [], hex]

/-- **C9 witness**: a concrete resolved batch. -/
theorem claim_C9_witness :
    (processOneBatch "" ⟨fun _ => false, fun _ => false, fun _ _ => .ok⟩
        [["SET", "k", "v"], ["DEL", "k"]] pipeInit).commandsExecuted = 0 + 2
    ∧ (processOneBatch "" ⟨fun _ => false, fun _ => false, fun _ _ => .ok⟩
        [["SET", "k", "v"], ["DEL", "k"]] pipeInit).errorCount
        = 0 + queueFailCount (fun _ => false) [["SET", "k", "v"], ["DEL", "k"]] 0 :=
  (claim_C9_resolved_batch_outcomes_ignored ""
    ⟨fun _ => false, fun _ => false, fun _ _ => .ok⟩
    [["SET", "k", "v"], ["DEL", "k"]] pipeInit).1 rfl

/-! ## Dependency Resolver (`lib/schema-loader.js`, `sortSchemasByDependencies`) -/

/-- A parsed schema file as assembled by `loadSchemas` before sorting:
`{ path, commands, metadata }` (the raw `content` field is never read
after parsing and is dropped). -/
structure ParsedSchema where
  path : String
  commands : List (List String)
  metadata : SchemaMetadata
deriving Repr, DecidableEq

/-- `path.basename(p)` in the POSIX form used here: the part after the
last `/`.  (Node additionally strips trailing slashes; no schema path in
this development has one.) -/
def basename (p : String) : String :=
  ((splitOnCharAux '/' p.data []).map String.mk).getLastD p

/-- `dependencyMap[name]`: the JS object is written once per file in input
order, later files overwriting earlier ones with the same basename, so a
lookup sees the *last* file with that basename.  Missing names give
`dependencyMap[name] || []` = `[]`. -/
def depsOf (files : List ParsedSchema) (n : String) : List String :=
  match files.reverse.find? (fun f => basename f.path = n) with
  | some f => f.metadata.dependencies
  | none => []

/-- `nameToPath[name]` is defined, i.e. some file has this basename. -/
def isKey (files : List ParsedSchema) (n : String) : Bool :=
  (files.find? (fun f => basename f.path = n)).isSome

/-- First-occurrence deduplication: JS object key order is first-insertion
order (schema basenames are non-integer-like strings, so no numeric-key
reordering applies). -/
def dedupFirst (seen : List String) : List String → List String
  | [] => []
  | x :: xs =>
    if seen.contains x then dedupFirst seen xs
    else x :: dedupFirst (x :: seen) xs

/-- The iteration order of `for (const name in dependencyMap)`. -/
def keyOrder (files : List ParsedSchema) : List String :=
  dedupFirst [] (files.map (fun f => basename f.path))

/-- `checkCircular(name, visited)`: DFS with a path-local visited set
(each recursive call receives a copy).  JS recurses unboundedly but
terminates because each level adds a distinct name, all intermediate
names being keys; the fuel `files.length + 1` passed by
`sortSchemasByDependencies` therefore can never run out (a run needing
more fuel would visit more distinct keys than there are files). -/
def checkCircular (files : List ParsedSchema) : Nat → String → List String → Bool
  | 0, n, visited => visited.contains n
  | f + 1, n, visited =>
    if visited.contains n then true
    else (depsOf files n).any (fun d => checkCircular files f d (n :: visited))

inductive SortError where
  | circular (name : String)
  | missing (name dep : String)
deriving Repr, DecidableEq

/-- `Circular dependency detected in schema ...` /
`Schema ... depends on ..., but ... was not found`. -/
def sortErrorMessage : SortError → String
  | .circular n => "Circular dependency detected in schema " ++ n
  | .missing n d => "Schema " ++ n ++ " depends on " ++ d ++ ", but " ++ d ++ " was not found"

structure VisitSt where
  visited : List String
  result : List String
deriving Repr, DecidableEq

mutual
/-- `visit(name)` of the topological sort: return if already visited,
else mark visited, visit dependencies (throwing on a missing one), then
append to the result.  Fuel as in `checkCircular`: the caller passes
`files.length + 1`, which cannot run out because each nesting level
enters a distinct key; the `fuel = 0` branch is unreachable from
`sortSchemasByDependencies`. -/
def visitD (files : List ParsedSchema) : Nat → String → VisitSt → Except SortError VisitSt
  | 0, _, st => .ok st
  | fuel + 1, n, st =>
    if st.visited.contains n then .ok st
    else
      match visitList files fuel n (depsOf files n) { st with visited := st.visited ++ [n] } with
      | .error e => .error e
      | .ok st2 => .ok { st2 with result := st2.result ++ [n] }
termination_by fuel _ _ => (fuel, 0)

/-- The `for (const dep of dependencyMap[name] || [])` loop inside
`visit`: check existence, then recurse. -/
def visitList (files : List ParsedSchema) : Nat → String → List String → VisitSt → Except SortError VisitSt
  | _, _, [], st => .ok st
  | fuel, parent, d :: ds, st =>
    if isKey files d then
      match visitD files fuel d st with
      | .error e => .error e
      | .ok st2 => visitList files fuel parent ds st2
    else .error (.missing parent d)
termination_by fuel _ ds _ => (fuel, ds.length + 1)
end

/-- The outer `for (const name in dependencyMap) visit(name)` loop. -/
def outerVisit (files : List ParsedSchema) (fuel : Nat) :
    List String → VisitSt → Except SortError VisitSt
  | [], st => .ok st
  | n :: ns, st =>
    match visitD files fuel n st with
    | .error e => .error e
    | .ok st2 => outerVisit files fuel ns st2

/-- `sortSchemasByDependencies(schemaFiles)` from `lib/schema-loader.js`:
first the cycle check over every key (throwing `CircularDependencyError`),
then the DFS topological sort (throwing `MissingDependencyError`).
`result.push(schemaFiles.find(...))` resolves each name back to the first
file with that basename (always present for visited names). -/
def sortSchemasByDependencies (files : List ParsedSchema) :
    Except SortError (List ParsedSchema) :=
  match (keyOrder files).find? (fun n => checkCircular files (files.length + 1) n []) with
  | some k => .error (.circular k)
  | none =>
    match outerVisit files (files.length + 1) (keyOrder files) ⟨[], []⟩ with
    | .error e => .error e
    | .ok st =>
      .ok (st.result.filterMap (fun n => files.find? (fun f => basename f.path = n)))

/-! ## Load orchestration (`lib/schema-loader.js`, `loadSchemas`)

The file-system part of `loadSchemas` (directory scan, reads) is external;
the embedding starts from the parsed schema files, exactly the
`schemaFiles` array the source builds before sorting.  The collaborator is
an oracle giving, per file index, the transaction behaviour and the
pipeline behaviour. -/

structure LoadConfig where
  useTransactions : Bool
  dryRun : Bool
  batchSize : Nat   -- 0 models an absent `batchSize` (`config.batchSize || 100`)
  pfx : String      -- "" models an absent `config.prefix`
deriving Repr, DecidableEq

structure LoadOracle where
  txnQueueFails : Nat → Nat → Option String
  txnExecResult : Nat → Except String (List TxnOutcome)
  pipe : Nat → PipeOracle

/-- One submission to the collaborator: a `multi.exec()` of a transaction,
or one `pipeline.exec()` of a batch. -/
inductive Submission where
  | txn (cmds : List (List String))
  | batch (cmds : List (List String))
deriving Repr, DecidableEq

structure LoadResult where
  success : Bool
  commandsExecuted : Option Nat
  filesProcessed : Option Nat
  errorCount : Option Nat
  details : Option String
deriving Repr, DecidableEq

/-- The per-file processing loop of `loadSchemas` over the sorted files. -/
def loadLoop (cfg : LoadConfig) (oracle : LoadOracle) :
    List ParsedSchema → Nat → Nat → Nat → List Submission →
    Nat × Nat × List Submission
  | [], _, cmds, errs, subs => (cmds, errs, subs)
  | schema :: rest, i, cmds, errs, subs =>
    if cfg.dryRun then loadLoop cfg oracle rest (i + 1) cmds errs subs
    else if cfg.useTransactions ∧ 0 < schema.commands.length then
      let processed := schema.commands.map
        (fun cmd => if cfg.pfx ≠ "" then applyPrefixToCommand cmd cfg.pfx else cmd)
      let r := executeInTransaction processed (oracle.txnQueueFails i) (oracle.txnExecResult i)
      let subs2 := subs ++ (match txnSubmission processed (oracle.txnQueueFails i) with
        | some q => [Submission.txn q]
        | none => [])
      if r.success then
        loadLoop cfg oracle rest (i + 1) (cmds + schema.commands.length) errs subs2
      else loadLoop cfg oracle rest (i + 1) cmds (errs + 1) subs2
    else
      let st := processBatches cfg.pfx cfg.batchSize schema.commands (oracle.pipe i) pipeInit
      loadLoop cfg oracle rest (i + 1) (cmds + st.commandsExecuted) (errs + st.errorCount)
        (subs ++ st.submissions.map Submission.batch)

/-- `loadSchemas(client, config)` from the point where all schema files
have been parsed: sort by dependencies (any sort error aborts the load
with a failure result before anything is submitted), then process each
file in sorted order; the aggregate result mirrors the source's return
object. -/
def loadSchemasCore (files : List ParsedSchema) (cfg : LoadConfig)
    (oracle : LoadOracle) : LoadResult × List Submission :=
  match sortSchemasByDependencies files with
  | .error e =>
    ({ success := false, commandsExecuted := none, filesProcessed := none,
       errorCount := none, details := some (sortErrorMessage e) }, [])
  | .ok sorted =>
    let (cmds, errs, subs) := loadLoop cfg oracle sorted 0 0 0 []
    ({ success := errs = 0, commandsExecuted := some cmds,
       filesProcessed := some files.length, errorCount := some errs,
       details := none }, subs)

/-! ## The declared dependency relation and correctness of the cycle check -/

/-- The declared dependency relation: `a` depends on `b` (edges emanate
from basenames present in the map; `depsOf` is `[]` elsewhere). -/
def Edge (files : List ParsedSchema) (a b : String) : Prop :=
  b ∈ depsOf files a

theorem contains_iff_mem {l : List String} {a : String} :
    l.contains a = true ↔ a ∈ l := by
  simp [List.contains_iff_exists_mem_beq, beq_iff_eq]

/-- Soundness of `checkCircular`: a `true` answer means the DFS found a
path from `n` back into `visited`, or a path from `n` to a genuine cycle
of the dependency relation. -/
theorem checkCircular_sound (files : List ParsedSchema) :
    ∀ (fuel : Nat) (n : String) (visited : List String),
      checkCircular files fuel n visited = true →
      (∃ x ∈ visited, Relation.ReflTransGen (Edge files) n x)
      ∨ (∃ c, Relation.ReflTransGen (Edge files) n c
              ∧ Relation.TransGen (Edge files) c c) := by
  intro fuel
  induction fuel with
  | zero =>
    intro n visited h
    rw [checkCircular] at h
    exact Or.inl ⟨n, contains_iff_mem.mp h, .refl⟩
  | succ f ih =>
    intro n visited h
    rw [checkCircular] at h
    split at h
    · next hv => exact Or.inl ⟨n, contains_iff_mem.mp hv, .refl⟩
    · rw [List.any_eq_true] at h
      obtain ⟨d, hd, hcd⟩ := h
      have hedge : Edge files n d := hd
      rcases ih d (n :: visited) hcd with ⟨x, hx, hreach⟩ | ⟨c, hreach, hcyc⟩
      · rcases List.mem_cons.mp hx with rfl | hx2
        · exact Or.inr ⟨_, .refl, Relation.TransGen.head' hedge hreach⟩
        · exact Or.inl ⟨x, hx2, Relation.ReflTransGen.head hedge hreach⟩
      · exact Or.inr ⟨c, Relation.ReflTransGen.head hedge hreach, hcyc⟩

/-- Walks along a relation, recording the visited nodes after the start. -/
inductive WalkTo (r : String → String → Prop) : String → String → List String → Prop
  | single {a b : String} (h : r a b) : WalkTo r a b [b]
  | cons {a b c : String} {l : List String} (h : r a b) (w : WalkTo r b c l) :
      WalkTo r a c (b :: l)

theorem transGen_walkTo {r : String → String → Prop} {a c : String}
    (h : Relation.TransGen r a c) : ∃ l, WalkTo r a c l := by
  induction h using Relation.TransGen.head_induction_on with
  | base hbc => exact ⟨[c], .single hbc⟩
  | ih hab _ ihb =>
    obtain ⟨l, w⟩ := ihb
    exact ⟨_ :: l, .cons hab w⟩

theorem walkTo_getLast {r : String → String → Prop} {a c : String} {l : List String}
    (w : WalkTo r a c l) : c ∈ l := by
  induction w with
  | single _ => simp
  | cons _ _ ih => exact List.mem_cons_of_mem _ ih

/-- Prefix of a walk up to a chosen intermediate node. -/
theorem walkTo_prefix {r : String → String → Prop} :
    ∀ {a c : String} {l : List String}, WalkTo r a c l →
      ∀ (l1 : List String) (x : String) (l2 : List String), l = l1 ++ x :: l2 →
        WalkTo r a x (l1 ++ [x]) := by
  intro a c l w
  induction w with
  | single h =>
    intro l1 x l2 he
    match l1, he with
    | [], he =>
      simp only [List.nil_append, List.cons.injEq] at he
      obtain ⟨rfl, he2⟩ := he
      have : l2 = [] := by
        cases l2 with
        | nil => rfl
        | cons p q => simp at he2
      exact .single h
    | y :: l1', he =>
      simp only [List.cons_append, List.cons.injEq] at he
      obtain ⟨rfl, he2⟩ := he
      exact absurd he2 (by simp)
  | cons h w ih =>
    intro l1 x l2 he
    match l1, he with
    | [], he =>
      simp only [List.nil_append, List.cons.injEq] at he
      obtain ⟨rfl, he2⟩ := he
      exact .single h
    | y :: l1', he =>
      simp only [List.cons_append, List.cons.injEq] at he
      obtain ⟨rfl, he2⟩ := he
      exact .cons h (ih l1' x l2 he2)

theorem walkTo_ne_nil {r : String → String → Prop} {a c : String} {l : List String}
    (w : WalkTo r a c l) : l ≠ [] := by
  cases w <;> simp

/-- Every node of a walk except the final one has an outgoing edge. -/
theorem walkTo_out {r : String → String → Prop} :
    ∀ {a c : String} {l : List String}, WalkTo r a c l →
      ∀ y, y ∈ a :: l.dropLast → ∃ z, r y z := by
  intro a c l w
  induction w with
  | single h =>
    intro y hy
    simp only [List.dropLast_single, List.mem_singleton] at hy
    subst hy
    exact ⟨_, h⟩
  | cons h w ih =>
    next a2 b2 c2 l2 =>
    intro y hy
    rw [List.dropLast_cons_of_ne_nil (walkTo_ne_nil w)] at hy
    rcases List.mem_cons.mp hy with rfl | hy2
    · exact ⟨_, h⟩
    · exact ih y hy2

theorem checkCircular_of_mem {files : List ParsedSchema} {fuel : Nat}
    {n : String} {visited : List String} (h : n ∈ visited) :
    checkCircular files fuel n visited = true := by
  cases fuel with
  | zero => rw [checkCircular]; exact contains_iff_mem.mpr h
  | succ f => rw [checkCircular, if_pos (contains_iff_mem.mpr h)]

/-- Completeness of `checkCircular` along a witnessing walk: if a walk
from `n` repeats a node or reaches `visited`, and the fuel covers the
walk length, the DFS answers `true`. -/
theorem checkCircular_complete (files : List ParsedSchema) :
    ∀ {l : List String} {n m : String}, WalkTo (Edge files) n m l →
      ∀ (visited : List String) (fuel : Nat),
        (¬ (n :: l).Nodup ∨ ∃ y ∈ n :: l, y ∈ visited) →
        l.length ≤ fuel →
        checkCircular files fuel n visited = true := by
  intro l n m w
  induction w with
  | single h =>
    next a b =>
    intro visited fuel hyp hlen
    by_cases hv : visited.contains a = true
    · exact checkCircular_of_mem (contains_iff_mem.mp hv)
    · have hb : b ∈ a :: visited := by
        rcases hyp with hnd | ⟨y, hy, hyv⟩
        · have hab : a = b := by
            by_contra hne
            exact hnd (by simp [hne])
          exact hab ▸ List.mem_cons_self a visited
        · rcases List.mem_cons.mp hy with rfl | hy2
          · exact absurd (contains_iff_mem.mpr hyv) hv
          · simp only [List.mem_singleton] at hy2
            subst hy2
            exact List.mem_cons_of_mem _ hyv
      obtain ⟨f, rfl⟩ : ∃ f, fuel = f + 1 := by
        refine ⟨fuel - 1, ?_⟩
        simp only [List.length_singleton] at hlen
        omega
      rw [checkCircular, if_neg hv]
      rw [List.any_eq_true]
      exact ⟨b, h, checkCircular_of_mem hb⟩
  | cons h w ih =>
    next a b c l2 =>
    intro visited fuel hyp hlen
    by_cases hv : visited.contains a = true
    · exact checkCircular_of_mem (contains_iff_mem.mp hv)
    · obtain ⟨f, rfl⟩ : ∃ f, fuel = f + 1 := by
        refine ⟨fuel - 1, ?_⟩
        simp only [List.length_cons] at hlen
        omega
      rw [checkCircular, if_neg hv]
      rw [List.any_eq_true]
      refine ⟨b, h, ?_⟩
      apply ih (a :: visited) f ?_ ?_
      · rcases hyp with hnd | ⟨y, hy, hyv⟩
        · by_cases hnd2 : (b :: l2).Nodup
          · have ha : a ∈ b :: l2 := by
              by_contra hna
              exact hnd (List.nodup_cons.mpr ⟨hna, hnd2⟩)
            exact Or.inr ⟨a, ha, List.mem_cons_self _ _⟩
          · exact Or.inl hnd2
        · rcases List.mem_cons.mp hy with rfl | hy2
          · exact absurd (contains_iff_mem.mpr hyv) hv
          · exact Or.inr ⟨y, hy2, List.mem_cons_of_mem _ hyv⟩
      · simp only [List.length_cons] at hlen
        omega

/-- First occurrence split: any member splits its list at its first
occurrence. -/
theorem exists_first_mem {α : Type} [DecidableEq α] {l : List α} {a : α}
    (h : a ∈ l) : ∃ s t, l = s ++ a :: t ∧ a ∉ s := by
  induction l with
  | nil => cases h
  | cons x xs ih =>
    by_cases hxa : x = a
    · exact ⟨[], xs, by simp [hxa], by simp⟩
    · rcases List.mem_cons.mp h with rfl | h2
      · exact absurd rfl hxa
      · obtain ⟨s, t, rfl, hna⟩ := ih h2
        exact ⟨x :: s, t, rfl, by simp [Ne.symm hxa, hna]⟩

/-- First repetition: a list with a duplicate splits as a duplicate-free
prefix followed by a repetition of one of its members. -/
theorem exists_first_repetition {α : Type} [DecidableEq α] :
    ∀ {L : List α}, ¬ L.Nodup →
      ∃ p x s, L = p ++ x :: s ∧ x ∈ p ∧ p.Nodup := by
  intro L
  induction L with
  | nil => intro h; exact absurd List.nodup_nil h
  | cons a t ih =>
    intro h
    by_cases ht : t.Nodup
    · have ha : a ∈ t := by
        by_contra hna
        exact h (List.nodup_cons.mpr ⟨hna, ht⟩)
      obtain ⟨s1, s2, rfl, hna⟩ := exists_first_mem ha
      refine ⟨a :: s1, a, s2, by simp, by simp, ?_⟩
      refine List.nodup_cons.mpr ⟨hna, ?_⟩
      exact (List.sublist_append_left s1 (a :: s2)).nodup ht
    · obtain ⟨p, x, s, rfl, hxp, hpnd⟩ := ih ht
      by_cases hap : a ∈ p
      · obtain ⟨p1, p2, rfl, hna⟩ := exists_first_mem hap
        refine ⟨a :: p1, a, p2 ++ x :: s, by simp, by simp, ?_⟩
        refine List.nodup_cons.mpr ⟨hna, ?_⟩
        exact (List.sublist_append_left p1 (a :: p2)).nodup hpnd
      · exact ⟨a :: p, x, s, by simp, List.mem_cons_of_mem _ hxp,
          List.nodup_cons.mpr ⟨hap, hpnd⟩⟩

theorem edge_isKey {files : List ParsedSchema} {y z : String}
    (h : Edge files y z) : isKey files y = true := by
  unfold Edge depsOf at h
  cases hf : files.reverse.find? (fun f => basename f.path = y) with
  | none => rw [hf] at h; simp at h
  | some f =>
    have hmem : f ∈ files := List.mem_reverse.mp (List.mem_of_find?_eq_some hf)
    have hp := List.find?_some hf
    unfold isKey
    rw [List.find?_isSome]
    exact ⟨f, hmem, hp⟩

theorem isKey_mem_basenames {files : List ParsedSchema} {n : String}
    (h : isKey files n = true) :
    n ∈ files.map (fun f => basename f.path) := by
  unfold isKey at h
  rw [List.find?_isSome] at h
  obtain ⟨f, hf, hp⟩ := h
  rw [List.mem_map]
  exact ⟨f, hf, by simpa using hp⟩

theorem mem_dedupFirst {x : String} :
    ∀ {l seen : List String}, x ∈ dedupFirst seen l ↔ x ∈ l ∧ x ∉ seen := by
  intro l
  induction l with
  | nil => intro seen; simp [dedupFirst]
  | cons a t ih =>
    intro seen
    rw [dedupFirst]
    by_cases hc : seen.contains a
    · rw [if_pos hc, ih]
      constructor
      · rintro ⟨hx, hs⟩
        exact ⟨List.mem_cons_of_mem _ hx, hs⟩
      · rintro ⟨hx, hs⟩
        rcases List.mem_cons.mp hx with rfl | hx2
        · exact absurd (contains_iff_mem.mp hc) hs
        · exact ⟨hx2, hs⟩
    · rw [if_neg hc]
      constructor
      · intro hx
        rcases List.mem_cons.mp hx with rfl | hx2
        · exact ⟨List.mem_cons_self _ _, fun hs => hc (contains_iff_mem.mpr hs)⟩
        · obtain ⟨h1, h2⟩ := ih.mp hx2
          refine ⟨List.mem_cons_of_mem _ h1, fun hs => h2 (List.mem_cons_of_mem _ hs)⟩
      · rintro ⟨hx, hs⟩
        rcases List.mem_cons.mp hx with rfl | hx2
        · exact List.mem_cons_self _ _
        · by_cases hxa : x = a
          · subst hxa; exact List.mem_cons_self _ _
          · exact List.mem_cons_of_mem _ (ih.mpr ⟨hx2, by
              intro hmem
              rcases List.mem_cons.mp hmem with h3 | h3
              · exact hxa h3
              · exact hs h3⟩)

theorem mem_keyOrder {files : List ParsedSchema} {n : String} :
    n ∈ keyOrder files ↔ isKey files n = true := by
  unfold keyOrder
  rw [mem_dedupFirst]
  constructor
  · rintro ⟨h1, -⟩
    rw [List.mem_map] at h1
    obtain ⟨f, hf, rfl⟩ := h1
    unfold isKey
    rw [List.find?_isSome]
    exact ⟨f, hf, by simp⟩
  · intro h
    exact ⟨isKey_mem_basenames h, by simp⟩

theorem nodup_subset_length {p L : List String} (hnd : p.Nodup)
    (hsub : ∀ y ∈ p, y ∈ L) : p.length ≤ L.length := by
  have h1 : p.toFinset.card = p.length := List.toFinset_card_of_nodup hnd
  have h2 : p.toFinset ⊆ L.toFinset := fun y hy =>
    List.mem_toFinset.mpr (hsub y (List.mem_toFinset.mp hy))
  calc p.length = p.toFinset.card := h1.symm
    _ ≤ L.toFinset.card := Finset.card_le_card h2
    _ ≤ L.length := L.toFinset_card_le

/-- Any cycle in the declared dependency relation is detected by the
cycle-check phase (with the fuel `sortSchemasByDependencies` passes). -/
theorem cycle_detected {files : List ParsedSchema}
    (hcyc : ∃ c, Relation.TransGen (Edge files) c c) :
    ∃ k, (keyOrder files).find?
        (fun n => checkCircular files (files.length + 1) n []) = some k := by
  obtain ⟨c, hc⟩ := hcyc
  obtain ⟨l, w⟩ := transGen_walkTo hc
  have hcl : c ∈ l := walkTo_getLast w
  have hnd : ¬ (c :: l).Nodup := by
    intro hnd
    exact (List.nodup_cons.mp hnd).1 hcl
  obtain ⟨p, x, s, hsplit, hxp, hpnd⟩ := exists_first_repetition hnd
  obtain ⟨p', rfl⟩ : ∃ p', p = c :: p' := by
    cases p with
    | nil => cases hxp
    | cons q qs =>
      simp only [List.cons_append, List.cons.injEq] at hsplit
      exact ⟨qs, by rw [hsplit.1]⟩
  have hl : l = p' ++ x :: s := by
    simp only [List.cons_append, List.cons.injEq] at hsplit
    exact hsplit.2
  have w2 : WalkTo (Edge files) c x (p' ++ [x]) := walkTo_prefix w p' x s hl
  -- nodes of the duplicate-free prefix are exactly c :: p', all keys
  have hout : ∀ y ∈ c :: p', ∃ z, Edge files y z := by
    intro y hy
    apply walkTo_out w2 y
    rwa [List.dropLast_concat]
  have hkeys : ∀ y ∈ c :: p', y ∈ files.map (fun f => basename f.path) := by
    intro y hy
    obtain ⟨z, hz⟩ := hout y hy
    exact isKey_mem_basenames (edge_isKey hz)
  have hlen : (p' ++ [x]).length ≤ files.length + 1 := by
    have := nodup_subset_length hpnd hkeys
    simp only [List.length_cons, List.length_map] at this
    simp only [List.length_append, List.length_singleton]
    omega
  have hcheck : checkCircular files (files.length + 1) c [] = true := by
    apply checkCircular_complete files w2 [] (files.length + 1) ?_ hlen
    left
    intro hnd2
    rw [show c :: (p' ++ [x]) = (c :: p') ++ [x] by simp] at hnd2
    rw [List.nodup_append] at hnd2
    exact hnd2.2.2 hxp (by simp)
  have hck : c ∈ keyOrder files := by
    rw [mem_keyOrder]
    obtain ⟨z, hz⟩ := hout c (List.mem_cons_self _ _)
    exact edge_isKey hz
  have : ((keyOrder files).find?
      (fun n => checkCircular files (files.length + 1) n [])).isSome := by
    rw [List.find?_isSome]
    exact ⟨c, hck, hcheck⟩
  obtain ⟨k, hk⟩ := Option.isSome_iff_exists.mp this
  exact ⟨k, hk⟩

/-- All declared dependencies of `x` exist among the files. -/
def GoodKey (files : List ParsedSchema) (x : String) : Prop :=
  ∀ d ∈ depsOf files x, isKey files d = true

theorem visitList_ok_keys (files : List ParsedSchema) :
    ∀ (fuel : Nat) (parent : String) (ds : List String) (st st2 : VisitSt),
      visitList files fuel parent ds st = .ok st2 →
      ∀ d ∈ ds, isKey files d = true := by
  intro fuel parent ds
  induction ds with
  | nil => intro st st2 _ d hd; cases hd
  | cons d0 ds ih =>
    intro st st2 h d hd
    rw [visitList] at h
    split at h
    · next hk =>
      cases hv : visitD files fuel d0 st with
      | error e => rw [hv] at h; cases h
      | ok st3 =>
        rw [hv] at h
        rcases List.mem_cons.mp hd with rfl | hd2
        · exact hk
        · exact ih st3 st2 h d hd2
    · cases h

theorem visitD_invariant (files : List ParsedSchema) :
    ∀ (fuel : Nat) (n : String) (st st2 : VisitSt),
      visitD files fuel n st = .ok st2 →
      ∀ x ∈ st2.visited, x ∈ st.visited ∨ GoodKey files x := by
  intro fuel
  induction fuel with
  | zero =>
    intro n st st2 h x hx
    rw [visitD] at h
    cases h
    exact Or.inl hx
  | succ f ihf =>
    have hlist : ∀ (parent : String) (ds : List String) (st st2 : VisitSt),
        visitList files f parent ds st = .ok st2 →
        ∀ x ∈ st2.visited, x ∈ st.visited ∨ GoodKey files x := by
      intro parent ds
      induction ds with
      | nil =>
        intro st st2 h x hx
        rw [visitList] at h
        cases h
        exact Or.inl hx
      | cons d0 ds ihl =>
        intro st st2 h x hx
        rw [visitList] at h
        split at h
        · cases hv : visitD files f d0 st with
          | error e => rw [hv] at h; cases h
          | ok st3 =>
            rw [hv] at h
            rcases ihl st3 st2 h x hx with hx3 | good
            · exact ihf d0 st st3 hv x hx3
            · exact Or.inr good
        · cases h
    intro n st st2 h x hx
    rw [visitD] at h
    split at h
    · cases h
      exact Or.inl hx
    · cases hl : visitList files f n (depsOf files n)
          { st with visited := st.visited ++ [n] } with
      | error e => rw [hl] at h; cases h
      | ok st3 =>
        rw [hl] at h
        cases h
        dsimp only at hx
        rcases hlist n (depsOf files n) _ st3 hl x hx with hx1 | good
        · dsimp only at hx1
          rcases List.mem_append.mp hx1 with hx0 | hxn
          · exact Or.inl hx0
          · simp only [List.mem_singleton] at hxn
            subst hxn
            exact Or.inr
              (fun d hd => visitList_ok_keys files f x (depsOf files x) _ st3 hl d hd)
        · exact Or.inr good

theorem outerVisit_append (files : List ParsedSchema) (fuel : Nat)
    (l1 l2 : List String) (st : VisitSt) :
    outerVisit files fuel (l1 ++ l2) st =
      match outerVisit files fuel l1 st with
      | .error e => .error e
      | .ok st2 => outerVisit files fuel l2 st2 := by
  induction l1 generalizing st with
  | nil =>
    rw [List.nil_append]
    rw [show outerVisit files fuel [] st = .ok st from rfl]
  | cons n ns ih =>
    rw [List.cons_append, outerVisit, outerVisit]
    cases visitD files fuel n st with
    | error e => rfl
    | ok st2 => exact ih st2

theorem outerVisit_invariant (files : List ParsedSchema) (fuel : Nat) :
    ∀ (ns : List String) (st st2 : VisitSt),
      outerVisit files fuel ns st = .ok st2 →
      ∀ x ∈ st2.visited, x ∈ st.visited ∨ GoodKey files x := by
  intro ns
  induction ns with
  | nil =>
    intro st st2 h x hx
    rw [outerVisit] at h
    cases h
    exact Or.inl hx
  | cons n ns ih =>
    intro st st2 h x hx
    rw [outerVisit] at h
    cases hv : visitD files fuel n st with
    | error e => rw [hv] at h; cases h
    | ok st3 =>
      rw [hv] at h
      rcases ih st3 st2 h x hx with hx3 | good
      · exact visitD_invariant files fuel n st st3 hv x hx3
      · exact Or.inr good

/-- Every error thrown in the topological-sort phase is a
missing-dependency error whose dependency indeed has no file. -/
theorem visit_error_missing (files : List ParsedSchema) :
    ∀ (fuel : Nat),
      (∀ (n : String) (st : VisitSt) (e : SortError),
        visitD files fuel n st = .error e →
        ∃ nm dp, e = .missing nm dp ∧ isKey files dp = false)
      ∧ (∀ (parent : String) (ds : List String) (st : VisitSt) (e : SortError),
        visitList files fuel parent ds st = .error e →
        ∃ nm dp, e = .missing nm dp ∧ isKey files dp = false) := by
  intro fuel
  induction fuel with
  | zero =>
    constructor
    · intro n st e h
      rw [visitD] at h
      cases h
    · intro parent ds
      induction ds with
      | nil => intro st e h; rw [visitList] at h; cases h
      | cons d0 ds ihl =>
        intro st e h
        rw [visitList] at h
        split at h
        · cases hv : visitD files 0 d0 st with
          | error e2 => rw [hv] at h; rw [visitD] at hv; cases hv
          | ok st3 => rw [hv] at h; exact ihl st3 e h
        · next hk =>
          cases h
          exact ⟨parent, d0, rfl, by simpa using hk⟩
  | succ f ihf =>
    have hD : ∀ (n : String) (st : VisitSt) (e : SortError),
        visitD files (f + 1) n st = .error e →
        ∃ nm dp, e = .missing nm dp ∧ isKey files dp = false := by
      intro n st e h
      rw [visitD] at h
      split at h
      · cases h
      · cases hl : visitList files f n (depsOf files n)
            { st with visited := st.visited ++ [n] } with
        | error e2 =>
          rw [hl] at h
          cases h
          exact ihf.2 n (depsOf files n) _ e hl
        | ok st3 => rw [hl] at h; cases h
    refine ⟨hD, ?_⟩
    intro parent ds
    induction ds with
    | nil => intro st e h; rw [visitList] at h; cases h
    | cons d0 ds ihl =>
      intro st e h
      rw [visitList] at h
      split at h
      · cases hv : visitD files (f + 1) d0 st with
        | error e2 =>
          rw [hv] at h
          cases h
          exact hD d0 st e hv
        | ok st3 => rw [hv] at h; exact ihl st3 e h
      · next hk =>
        cases h
        exact ⟨parent, d0, rfl, by simpa using hk⟩

theorem outerVisit_error_missing (files : List ParsedSchema) (fuel : Nat) :
    ∀ (ns : List String) (st : VisitSt) (e : SortError),
      outerVisit files fuel ns st = .error e →
      ∃ nm dp, e = .missing nm dp ∧ isKey files dp = false := by
  intro ns
  induction ns with
  | nil => intro st e h; rw [outerVisit] at h; cases h
  | cons n ns ih =>
    intro st e h
    rw [outerVisit] at h
    cases hv : visitD files fuel n st with
    | error e2 =>
      rw [hv] at h
      cases h
      exact (visit_error_missing files fuel).1 n st e hv
    | ok st3 =>
      rw [hv] at h
      exact ih st3 e h

theorem no_cycle_find_none {files : List ParsedSchema}
    (h : ¬ ∃ c, Relation.TransGen (Edge files) c c) :
    (keyOrder files).find?
        (fun n => checkCircular files (files.length + 1) n []) = none := by
  rw [List.find?_eq_none]
  intro x _ hcc
  rcases checkCircular_sound files _ x [] hcc with ⟨y, hy, _⟩ | ⟨c, _, hcyc⟩
  · cases hy
  · exact h ⟨c, hcyc⟩

/-- With no cycle but a declared dependency that names no file, the
topological phase necessarily throws a missing-dependency error. -/
theorem missing_dep_error {files : List ParsedSchema}
    (hnc : ¬ ∃ c, Relation.TransGen (Edge files) c c)
    (hmiss : ∃ n, isKey files n = true ∧ ∃ d ∈ depsOf files n, isKey files d = false) :
    ∃ nm dp, sortSchemasByDependencies files = .error (.missing nm dp)
      ∧ isKey files dp = false := by
  unfold sortSchemasByDependencies
  rw [no_cycle_find_none hnc]
  cases ho : outerVisit files (files.length + 1) (keyOrder files) ⟨[], []⟩ with
  | error e =>
    obtain ⟨nm, dp, rfl, hk⟩ := outerVisit_error_missing files _ (keyOrder files) _ e ho
    exact ⟨nm, dp, rfl, hk⟩
  | ok stF =>
    exfalso
    obtain ⟨n, hkn, d, hd, hdk⟩ := hmiss
    have hnK : n ∈ keyOrder files := mem_keyOrder.mpr hkn
    obtain ⟨s, t, hst⟩ := List.append_of_mem hnK
    rw [hst, outerVisit_append] at ho
    cases hs : outerVisit files (files.length + 1) s ⟨[], []⟩ with
    | error e => rw [hs] at ho; cases ho
    | ok stm =>
      rw [hs] at ho
      dsimp only at ho
      rw [outerVisit] at ho
      cases hv : visitD files (files.length + 1) n stm with
      | error e => rw [hv] at ho; cases ho
      | ok stn =>
        rw [visitD] at hv
        split at hv
        · next hcont =>
          -- n was visited during the earlier folds: its body ran with all deps keys
          have := outerVisit_invariant files _ s ⟨[], []⟩ stm hs n
            (contains_iff_mem.mp hcont)
          rcases this with h0 | good
          · cases h0
          · exact absurd (good d hd) (by simp [hdk])
        · -- the body of visit(n) runs: its dependency loop sees d
          cases hl : visitList files files.length n (depsOf files n)
              { stm with visited := stm.visited ++ [n] } with
          | error e2 => rw [hl] at hv; cases hv
          | ok st3 =>
            have := visitList_ok_keys files files.length n (depsOf files n) _ st3 hl d hd
            exact absurd this (by simp [hdk])

/-- **C1** (`sortSchemasByDependencies` + `loadSchemas`): a cycle in the
declared dependency relation makes ordering fail with a
circular-dependency error naming an offending schema (one from which a
cycle is reachable), and a declared dependency naming no file (in an
acyclic set) makes ordering fail with a missing-dependency error; in both
cases the failure happens before any command is submitted to the executor
(empty submission trace) and the load returns a failure result. -/
theorem claim_C1_dependency_errors (files : List ParsedSchema)
    (cfg : LoadConfig) (oracle : LoadOracle) :
    ((∃ c, Relation.TransGen (Edge files) c c) →
      (∃ nm, sortSchemasByDependencies files = .error (.circular nm)
          ∧ ∃ c, Relation.ReflTransGen (Edge files) nm c
              ∧ Relation.TransGen (Edge files) c c)
      ∧ (loadSchemasCore files cfg oracle).1.success = false
      ∧ (loadSchemasCore files cfg oracle).2 = [])
    ∧ ((¬ ∃ c, Relation.TransGen (Edge files) c c) →
      (∃ n, isKey files n = true ∧ ∃ d ∈ depsOf files n, isKey files d = false) →
      (∃ nm dp, sortSchemasByDependencies files = .error (.missing nm dp)
          ∧ isKey files dp = false)
      ∧ (loadSchemasCore files cfg oracle).1.success = false
      ∧ (loadSchemasCore files cfg oracle).2 = []) := by
  constructor
  · intro hcyc
    obtain ⟨k, hk⟩ := cycle_detected hcyc
    have hsort : sortSchemasByDependencies files = .error (.circular k) := by
      unfold sortSchemasByDependencies
      rw [hk]
    have hoff : ∃ c, Relation.ReflTransGen (Edge files) k c
        ∧ Relation.TransGen (Edge files) c c := by
      have hpk := List.find?_some hk
      rcases checkCircular_sound files _ k [] hpk with ⟨y, hy, _⟩ | hc
      · cases hy
      · exact hc
    refine ⟨⟨k, hsort, hoff⟩, ?_, ?_⟩
    · unfold loadSchemasCore; rw [hsort]
    · unfold loadSchemasCore; rw [hsort]
  · intro hnc hmiss
    obtain ⟨nm, dp, hsort, hdk⟩ := missing_dep_error hnc hmiss
    refine ⟨⟨nm, dp, hsort, hdk⟩, ?_, ?_⟩
    · unfold loadSchemasCore; rw [hsort]
    · unfold loadSchemasCore; rw [hsort]

def c1Files : List ParsedSchema :=
  [⟨"a.redis", [], ⟨1, "", ["b.redis"]⟩⟩, ⟨"b.redis", [], ⟨1, "", ["a.redis"]⟩⟩]

def c1Cfg : LoadConfig := ⟨false, false, 0, ""⟩

def c1Oracle : LoadOracle :=
  ⟨fun _ _ => none, fun _ => .ok [],
   fun _ => ⟨fun _ => false, fun _ => false, fun _ _ => .ok⟩⟩

/-- **C1 witness**: the two-file cycle `a.redis → b.redis → a.redis`
yields a failed load with nothing submitted. -/
theorem claim_C1_witness :
    (loadSchemasCore c1Files c1Cfg c1Oracle).1.success = false
    ∧ (loadSchemasCore c1Files c1Cfg c1Oracle).2 = [] := by
  have e1 : Edge c1Files "a.redis" "b.redis" := by
    show "b.redis" ∈ depsOf c1Files "a.redis"
    decide
  have e2 : Edge c1Files "b.redis" "a.redis" := by
    show "a.redis" ∈ depsOf c1Files "b.redis"
    decide
  have hcyc : ∃ c, Relation.TransGen (Edge c1Files) c c :=
    ⟨"a.redis", Relation.TransGen.tail (Relation.TransGen.single e1) e2⟩
  exact ((claim_C1_dependency_errors c1Files c1Cfg c1Oracle).1 hcyc).2

/-- Ordering a single file whose declared dependency list is `[""]` (the
parse of an empty `dependencies:` marker) throws the missing-dependency
error for the empty name. -/
theorem sort_singleton_empty_dep (f : ParsedSchema)
    (hdep : f.metadata.dependencies = [""])
    (hb : basename f.path ≠ "") :
    sortSchemasByDependencies [f] = .error (.missing (basename f.path) "") := by
  have hdeps : depsOf [f] (basename f.path) = [""] := by
    simp [depsOf, hdep]
  have hdeps2 : depsOf [f] "" = [] := by
    simp [depsOf, hb]
  have hkey : isKey [f] "" = false := by
    simp [isKey, hb]
  have hko : keyOrder [f] = [basename f.path] := by
    simp [keyOrder, dedupFirst]
  have hcc : checkCircular [f] 2 (basename f.path) [] = false := by
    rw [checkCircular, if_neg (by simp), hdeps]
    simp only [List.any_cons, List.any_nil, Bool.or_false]
    rw [checkCircular, if_neg (by simpa using Ne.symm hb), hdeps2]
    rfl
  have hvl : visitList [f] 1 (basename f.path) [""] ⟨[basename f.path], []⟩
      = .error (.missing (basename f.path) "") := by
    rw [visitList, if_neg (by simp [hkey])]
  have hvd : visitD [f] 2 (basename f.path) ⟨[], []⟩
      = .error (.missing (basename f.path) "") := by
    rw [visitD, if_neg (by simp)]
    simp only [hdeps, List.nil_append, hvl]
  unfold sortSchemasByDependencies
  have hfind : (keyOrder [f]).find?
      (fun n => checkCircular [f] ([f].length + 1) n []) = none := by
    rw [hko, List.find?_eq_none]
    intro x hx
    simp only [List.mem_singleton] at hx
    subst hx
    simp only [List.length_singleton]
    simp [hcc]
  rw [hfind, hko]
  rw [outerVisit]
  simp only [List.length_singleton]
  rw [hvd]

/-- **C10** (`parseSchemaContent` + `sortSchemasByDependencies`): when the
dependencies marker captures an empty value (e.g. the content ends with a
bare `dependencies:` line), the parsed dependency list is `[""]` — the
one-element list holding the empty string, not the empty list — and
ordering a set containing such a file raises the missing-dependency error
for the empty name although no real dependency was declared. -/
theorem claim_C10_empty_dependencies_marker (content : String) (p : String)
    (h1 : dependenciesCapture content = some "")
    (h2 : basename p ≠ "") :
    (parseSchemaContent content []).metadata.dependencies = [""]
    ∧ sortSchemasByDependencies
        [⟨p, (parseSchemaContent content []).commands,
          (parseSchemaContent content []).metadata⟩]
      = .error (.missing (basename p) "") := by
  have hdep : (parseSchemaContent content []).metadata.dependencies = [""] := by
    simp only [parseSchemaContent, h1]
    rfl
  refine ⟨hdep, ?_⟩
  exact sort_singleton_empty_dep _ hdep h2

/-- **C10 witness**: the concrete content `"dependencies:\n"`. -/
theorem claim_C10_witness :
    (parseSchemaContent "dependencies:\n" []).metadata.dependencies = [""]
    ∧ sortSchemasByDependencies
        [⟨"a.redis", (parseSchemaContent "dependencies:\n" []).commands,
          (parseSchemaContent "dependencies:\n" []).metadata⟩]
      = .error (.missing (basename "a.redis") "") :=
  claim_C10_empty_dependencies_marker "dependencies:\n" "a.redis"
    (by decide) (by decide)

/-! ## C7: comment stripping -/

theorem splitOnCharAux_no_sep (sep : Char) :
    ∀ (l acc : List Char), sep ∉ l →
      splitOnCharAux sep l acc = [acc.reverse ++ l] := by
  intro l
  induction l with
  | nil => intro acc _; simp [splitOnCharAux]
  | cons c cs ih =>
    intro acc h
    rw [splitOnCharAux, if_neg (show ¬ c = sep from
      fun hc => h (by rw [← hc]; exact List.mem_cons_self c cs))]
    rw [ih (c :: acc) (fun hm => h (List.mem_cons_of_mem c hm))]
    simp

theorem extractor_single (l : String) : parseSchemaForLuaScripts [l] 0 = none := by
  rw [parseSchemaForLuaScripts]
  simp only [List.getElem?_cons_zero]
  split
  · split
    · rfl
    · rw [show findEndScript [l] 0 = none by rfl]
  · rfl

/-- The single-line parse depends only on the comment-stripped, trimmed
line text. -/
theorem parseLoopF_single (l1 l2 : String)
    (h : trimStr ⟨stripCommentL l1.data⟩ = trimStr ⟨stripCommentL l2.data⟩) :
    parseLoopF [l1] 1 0 0 [] ⟨[], []⟩ = parseLoopF [l2] 1 0 0 [] ⟨[], []⟩ := by
  rw [parseLoopF, parseLoopF]
  simp only [List.length_singleton, Nat.zero_lt_one, dif_pos, List.getD,
    List.get?_cons_zero, Option.getD_some, gt_iff_lt, Nat.lt_irrefl,
    if_false, extractor_single, parseLoopF]
  rw [h]

/-- **C7, counterexample**: the claim says an escaped comment marker
(`\#`) does not start a comment and the text after it is retained in the
command; but the source strips from the *first* `#` regardless of
escaping, so `SET key \#tag;` loses its terminator and parses to *no*
command at all — nothing after the escaped marker is retained. -/
theorem claim_C7_counterexample :
    (parseSchemaContent "SET key \\#tag;" []).commands = [] := by
  decide

/-- **C7, amended** (`parseSchemaContent`, line 70): line processing
strips as a trailing comment exactly the text from the first `#` that is
followed by no line-terminator character — on lines produced by
`split('\n')`, the first `#` of the segment after the line's last
carriage return — to end of line, whether or not that marker is preceded
by a backslash; a `#` followed later in the line by a line terminator
(e.g. the `\r` of CRLF input) starts no comment and the line passes
through unchanged; an escaped marker is given no special treatment, and
text after it is never retained when stripping applies. -/
theorem claim_C7_comment_stripping :
    (∀ pre suf : String, '#' ∉ pre.data → '\n' ∉ pre.data →
      (∀ c ∈ suf.data, isLineTerm c = false) →
      (parseSchemaContent (pre ++ "#" ++ suf) []).commands
        = (parseSchemaContent pre []).commands)
    ∧ (∀ l : List Char, (∀ a b, l = a ++ '#' :: b → b.any isLineTerm = true) →
      stripCommentL l = l) := by
  refine ⟨?_, fun l h => stripCommentL_eq_self h⟩
  intro pre suf hp1 hp2 hs
  have hs2 : '\n' ∉ suf.data := fun hm => by
    have := hs '\n' hm
    rw [show isLineTerm '\n' = true by decide] at this
    cases this
  have hdata : (pre ++ "#" ++ suf).data = pre.data ++ '#' :: suf.data := by
    simp [String.data_append]
  have hlines1 : splitLines (pre ++ "#" ++ suf) = [⟨pre.data ++ '#' :: suf.data⟩] := by
    unfold splitLines
    rw [hdata, splitOnCharAux_no_sep]
    · simp
    · intro hmem
      rcases List.mem_append.mp hmem with hm | hm
      · exact hp2 hm
      · rcases List.mem_cons.mp hm with hm2 | hm2
        · cases hm2
        · exact hs2 hm2
  have hlines2 : splitLines pre = [pre] := by
    unfold splitLines
    rw [splitOnCharAux_no_sep _ _ _ hp2]
    simp
  have hstrip : trimStr ⟨stripCommentL (⟨pre.data ++ '#' :: suf.data⟩ : String).data⟩
      = trimStr ⟨stripCommentL pre.data⟩ := by
    have hprehash : ∀ c ∈ pre.data, c ≠ '#' := fun c hc he => hp1 (he ▸ hc)
    have h1 : stripCommentL (pre.data ++ '#' :: suf.data) = pre.data := by
      rw [stripCommentL_append_no_hash hprehash]
      rw [stripCommentL, if_pos ⟨rfl, List.any_eq_false.mpr
        (fun c hc => by rw [hs c hc]; decide)⟩]
      simp
    have h2 : stripCommentL pre.data = pre.data := by
      apply stripCommentL_eq_self
      intro a b hab
      exact absurd (hab ▸ (List.mem_append.mpr (Or.inr (List.mem_cons_self _ _)))) hp1
    rw [show ((⟨pre.data ++ '#' :: suf.data⟩ : String).data)
        = pre.data ++ '#' :: suf.data from rfl, h1, h2]
  simp only [parseSchemaContent, processTemplate, List.isEmpty_nil, if_true]
  rw [hlines1, hlines2]
  rw [show ([(⟨pre.data ++ '#' :: suf.data⟩ : String)] : List String).length = 1 from rfl,
    show ([pre] : List String).length = 1 from rfl]
  rw [parseLoopF_single _ _ (by
    rw [show (pre : String).data = pre.data from rfl]
    exact hstrip)]

/-! ## C5: script blocks contribute no command text -/

/-- Line `j` is a terminator line (`trim === 'END_SCRIPT'`). -/
def isTerm (lines : List String) (j : Nat) : Prop :=
  ∃ l, lines[j]? = some l ∧ trimStr l = "END_SCRIPT"

/-- Line `i` is a `SCRIPT:` block tag with non-empty name, judged on the
raw line exactly as `parseSchemaForLuaScripts` does. -/
def isTagAt (lines : List String) (i : Nat) : Prop :=
  match lines[i]? with
  | some l => startsWithL "SCRIPT:".data l.data = true ∧ trimStr ⟨l.data.drop 7⟩ ≠ ""
  | none => False

/-- Index `j` lies strictly inside no script block. -/
def SafeLine (lines : List String) (j : Nat) : Prop :=
  ∀ t m, isTagAt lines t → findEndScript lines t = some m → ¬(t < j ∧ j < m)

theorem findTermIdx_spec :
    ∀ {ls : List String} {k : Nat}, findTermIdx ls = some k →
      (∃ l, ls[k]? = some l ∧ trimStr l = "END_SCRIPT")
      ∧ ∀ j, j < k → ∀ l, ls[j]? = some l → trimStr l ≠ "END_SCRIPT" := by
  intro ls
  induction ls with
  | nil => intro k h; simp [findTermIdx] at h
  | cons l0 ls ih =>
    intro k h
    rw [findTermIdx] at h
    split at h
    · next ht =>
      cases h
      exact ⟨⟨l0, by simp, ht⟩, fun j hj => by omega⟩
    · next ht =>
      cases hk : findTermIdx ls with
      | none => rw [hk] at h; cases h
      | some k2 =>
        rw [hk] at h
        simp only [Option.map_some', Option.some.injEq] at h
        subst h
        obtain ⟨⟨l2, hl2, hterm⟩, hmin⟩ := ih hk
        refine ⟨⟨l2, by simpa using hl2, hterm⟩, ?_⟩
        intro j hj l hl
        cases j with
        | zero =>
          simp only [List.getElem?_cons_zero, Option.some.injEq] at hl
          subst hl
          exact ht
        | succ j2 =>
          simp only [List.getElem?_cons_succ] at hl
          exact hmin j2 (by omega) l hl

theorem findEndScript_spec {lines : List String} {i m : Nat}
    (h : findEndScript lines i = some m) :
    i < m ∧ isTerm lines m ∧ ∀ j, i < j → j < m → ¬isTerm lines j := by
  unfold findEndScript at h
  cases hk : findTermIdx (lines.drop (i + 1)) with
  | none => rw [hk] at h; cases h
  | some k =>
    rw [hk] at h
    simp only [Option.map_some', Option.some.injEq] at h
    subst h
    obtain ⟨⟨l, hl, hterm⟩, hmin⟩ := findTermIdx_spec hk
    rw [List.getElem?_drop] at hl
    refine ⟨by omega, ⟨l, by rw [show i + 1 + k = k + (i + 1) by omega] at hl; exact hl, hterm⟩, ?_⟩
    intro j hj1 hj2 ⟨l2, hl2, hterm2⟩
    have hj3 : j - (i + 1) < k := by omega
    have : (lines.drop (i + 1))[j - (i + 1)]? = some l2 := by
      rw [List.getElem?_drop]
      rw [show i + 1 + (j - (i + 1)) = j by omega]
      exact hl2
    exact hmin (j - (i + 1)) hj3 l2 this hterm2

theorem dropTrailingWs_append {p : List Char} (hp : ∀ c ∈ p, ¬c.isWhitespace) :
    ∀ x : List Char, dropTrailingWs (p ++ x) = p ++ dropTrailingWs x := by
  induction p with
  | nil => intro x; simp
  | cons c cs ih =>
    intro x
    have hc : ¬c.isWhitespace := hp c (List.mem_cons_self c cs)
    have ihx := ih (fun d hd => hp d (List.mem_cons_of_mem c hd)) x
    rw [List.cons_append, dropTrailingWs, ihx]
    cases hcs : cs ++ dropTrailingWs x with
    | nil =>
      obtain ⟨h1, h2⟩ := List.append_eq_nil.mp hcs
      simp [hc, h1, h2]
    | cons a b => rw [List.cons_append, hcs]

/-- A raw `SCRIPT:` line survives comment stripping and trimming with its
`SCRIPT:` head intact (the literal contains no `#` and starts with a
non-whitespace character). -/
theorem stripped_startsWith_SCRIPT {l : String}
    (h : startsWithL "SCRIPT:".data l.data = true) :
    ∃ rest, trimL (stripCommentL l.data) = "SCRIPT:".data ++ rest := by
  rw [startsWithL, List.isPrefixOf_iff_prefix] at h
  obtain ⟨t, ht⟩ := h
  have hd : l.data = "SCRIPT:".data ++ t := ht.symm
  have hnohash : ∀ c ∈ "SCRIPT:".data, c ≠ '#' := by decide
  have hnows : ∀ c ∈ "SCRIPT:".data, ¬c.isWhitespace := by decide
  rw [hd]
  unfold trimL
  rw [stripCommentL_append_no_hash hnohash t]
  rw [show ("SCRIPT:".data ++ stripCommentL t)
      = 'S' :: ("CRIPT:".data ++ stripCommentL t) from rfl]
  rw [List.dropWhile_cons_of_neg (by decide)]
  rw [show 'S' :: ("CRIPT:".data ++ stripCommentL t)
      = "SCRIPT:".data ++ stripCommentL t from rfl]
  rw [dropTrailingWs_append hnows]
  exact ⟨_, rfl⟩

theorem dropTrailingWs_head {c : Char} {cs : List Char} (hc : ¬c.isWhitespace) :
    ∃ r, dropTrailingWs (c :: cs) = c :: r := by
  rw [dropTrailingWs]
  cases dropTrailingWs cs with
  | nil => exact ⟨[], by simp [hc]⟩
  | cons a b => exact ⟨a :: b, rfl⟩

/-- A block tag line is never a terminator line. -/
theorem tag_not_term {lines : List String} {i : Nat}
    (ht : isTagAt lines i) : ¬isTerm lines i := by
  rintro ⟨l, hl, hterm⟩
  unfold isTagAt at ht
  rw [hl] at ht
  obtain ⟨hstart, -⟩ := ht
  rw [startsWithL, List.isPrefixOf_iff_prefix] at hstart
  obtain ⟨t, ht2⟩ := hstart
  have hd : l.data = 'S' :: ("CRIPT:".data ++ t) := by rw [← ht2]; rfl
  have htrim : trimL l.data = "END_SCRIPT".data := congrArg String.data hterm
  rw [hd] at htrim
  unfold trimL at htrim
  rw [List.dropWhile_cons_of_neg (by decide)] at htrim
  obtain ⟨r, hr⟩ := @dropTrailingWs_head 'S' ("CRIPT:".data ++ t) (by decide)
  rw [hr] at htrim
  rw [show "END_SCRIPT".data = 'E' :: "ND_SCRIPT".data from rfl] at htrim
  have : 'S' = 'E' := by injection htrim
  exact absurd this (by decide)

theorem extractor_some {lines : List String} {i : Nat} {r : LuaScriptInfo}
    (h : parseSchemaForLuaScripts lines i = some r) :
    isTagAt lines i ∧ findEndScript lines i = some r.endIndex := by
  unfold parseSchemaForLuaScripts at h
  cases hl : lines[i]? with
  | none => rw [hl] at h; cases h
  | some l =>
    rw [hl] at h
    dsimp only at h
    split at h
    · next hstart =>
      split at h
      · cases h
      · next hname =>
        cases he : findEndScript lines i with
        | none => rw [he] at h; cases h
        | some e =>
          rw [he] at h
          cases h
          refine ⟨?_, rfl⟩
          unfold isTagAt
          rw [hl]
          exact ⟨hstart, hname⟩
    · cases h

theorem extractor_none_not_tag {lines : List String} {i : Nat}
    (hbal : ∀ t, isTagAt lines t → (findEndScript lines t).isSome)
    (h : parseSchemaForLuaScripts lines i = none) : ¬isTagAt lines i := by
  intro ht
  have htt := ht
  unfold isTagAt at htt
  cases hl : lines[i]? with
  | none => rw [hl] at htt; exact htt
  | some l =>
    rw [hl] at htt
    obtain ⟨hstart, hname⟩ := htt
    cases he : findEndScript lines i with
    | none =>
      have hb := hbal i ht
      rw [he] at hb
      cases hb
    | some e =>
      unfold parseSchemaForLuaScripts at h
      rw [hl] at h
      dsimp only at h
      rw [if_pos hstart, if_neg hname, he] at h
      cases h

theorem tag_stripped {lines : List String} {i : Nat} (hi : i < lines.length)
    (ht : isTagAt lines i) :
    startsWithL "SCRIPT:".data
        (trimStr ⟨stripCommentL (lines.getD i "").data⟩).data = true
    ∧ trimStr ⟨stripCommentL (lines.getD i "").data⟩ ≠ "" := by
  have hl : lines[i]? = some lines[i] := List.getElem?_eq_getElem hi
  have hgd : lines.getD i "" = lines[i] := by
    rw [List.getD, List.get?_eq_getElem?, hl, Option.getD_some]
  unfold isTagAt at ht
  rw [hl] at ht
  obtain ⟨hstart, -⟩ := ht
  obtain ⟨rest, hrest⟩ := stripped_startsWith_SCRIPT hstart
  rw [hgd]
  have hdata : (trimStr ⟨stripCommentL lines[i].data⟩).data
      = "SCRIPT:".data ++ rest := by
    unfold trimStr
    exact hrest
  constructor
  · rw [hdata, startsWithL, List.isPrefixOf_iff_prefix]
    exact List.prefix_append _ _
  · intro hcon
    have : (trimStr ⟨stripCommentL lines[i].data⟩).data = [] :=
      congrArg String.data hcon
    rw [hdata] at this
    cases this

/-- The central invariant argument: every line index `parseLoopF` ever
pushes into the command accumulator lies strictly inside no script block
(provided every tag has a terminator). -/
theorem parseLoopF_safe (lines : List String)
    (hbal : ∀ t, isTagAt lines t → (findEndScript lines t).isSome) :
    ∀ (fuel i skip : Nat) (cur : List String) (acc : ParseAcc),
      fuel + i = lines.length →
      (skip ≤ i ∨ (0 < skip ∧ isTerm lines (skip - 1)
        ∧ ∀ j, i ≤ j → j < skip - 1 → ¬isTerm lines j)) →
      (∀ t m, isTagAt lines t → t < i → findEndScript lines t = some m →
        m < i ∨ m < skip) →
      ∀ j, j ∈ (parseLoopF lines fuel i skip cur acc).consumed →
        j ∈ acc.consumed ∨ SafeLine lines j := by
  intro fuel
  induction fuel with
  | zero =>
    intro i skip cur acc _ _ _ j hj
    rw [parseLoopF] at hj
    exact Or.inl hj
  | succ f ih =>
    intro i skip cur acc hfi hinv1 hinv3 j hj
    have hi : i < lines.length := by omega
    rw [parseLoopF] at hj
    rw [dif_pos hi] at hj
    by_cases hskip : skip > i
    · rw [if_pos hskip] at hj
      refine ih (i + 1) skip cur acc (by omega) ?_ ?_ j hj
      · rcases hinv1 with h1 | ⟨hpos, hterm, hmin⟩
        · left; omega
        · by_cases h2 : skip ≤ i + 1
          · left; exact h2
          · right
            exact ⟨hpos, hterm, fun j2 hj2 hj3 => hmin j2 (by omega) hj3⟩
      · intro t m htag hti hfe
        by_cases hti2 : t < i
        · rcases hinv3 t m htag hti2 hfe with h | h
          · left; omega
          · right; exact h
        · have hteq : t = i := by omega
          subst hteq
          rcases hinv1 with h1 | ⟨hpos, hterm, hmin⟩
          · omega
          · right
            have hne : skip - 1 ≠ t := by
              intro he
              exact tag_not_term htag (he ▸ hterm)
            obtain ⟨-, -, hfirst⟩ := findEndScript_spec hfe
            by_contra hge
            exact hfirst (skip - 1) (by omega) (by omega) hterm
    · rw [if_neg hskip] at hj
      dsimp only at hj
      -- SafeLine for the current index (a processed line is inside no block)
      have hsafeI : SafeLine lines i := by
        intro t m htag hfe hcon
        obtain ⟨hti, him⟩ := hcon
        rcases hinv3 t m htag hti hfe with h | h
        · omega
        · omega
      by_cases hblank : trimStr ⟨stripCommentL (lines.getD i "").data⟩ = ""
      · rw [if_pos hblank] at hj
        refine ih (i + 1) skip cur acc (by omega) (Or.inl (by omega)) ?_ j hj
        intro t m htag hti hfe
        by_cases hti2 : t < i
        · rcases hinv3 t m htag hti2 hfe with h | h <;> [left; left] <;> omega
        · have hteq : t = i := by omega
          subst hteq
          exact absurd hblank (tag_stripped hi htag).2
      · rw [if_neg hblank] at hj
        -- shared handler for the two text-path branches
        have hINV3' : ¬isTagAt lines i →
            ∀ t m, isTagAt lines t → t < i + 1 → findEndScript lines t = some m →
              m < i + 1 ∨ m < skip := by
          intro hnotag t m htag hti hfe
          by_cases hti2 : t < i
          · rcases hinv3 t m htag hti2 hfe with h | h <;> [left; left] <;> omega
          · have hteq : t = i := by omega
            subst hteq
            exact absurd htag hnotag
        have hrec : ¬isTagAt lines i →
            ∀ (cur2 : List String) (acc2 : ParseAcc),
              acc2.consumed = acc.consumed ++ [i] →
              ∀ j2, j2 ∈ (parseLoopF lines f (i + 1) skip cur2 acc2).consumed →
                j2 ∈ acc.consumed ∨ SafeLine lines j2 := by
          intro hnotag cur2 acc2 hacc j2 hj2
          rcases ih (i + 1) skip cur2 acc2 (by omega) (Or.inl (by omega))
              (hINV3' hnotag) j2 hj2 with hm | hs
          · rw [hacc] at hm
            rcases List.mem_append.mp hm with hm1 | hm2
            · exact Or.inl hm1
            · simp only [List.mem_singleton] at hm2
              subst hm2
              exact Or.inr hsafeI
          · exact Or.inr hs
        by_cases hscript : startsWithL "SCRIPT:".data
            (trimStr ⟨stripCommentL (lines.getD i "").data⟩).data = true
        · rw [if_pos hscript] at hj
          cases hext : parseSchemaForLuaScripts lines i with
          | some r =>
            rw [hext] at hj
            dsimp only at hj
            obtain ⟨htagI, hfeI⟩ := extractor_some hext
            obtain ⟨hlt, hterm, hfirst⟩ := findEndScript_spec hfeI
            refine ih (i + 1) (r.endIndex + 1) cur acc (by omega) ?_ ?_ j hj
            · right
              refine ⟨by omega, by simpa using hterm, ?_⟩
              intro j2 hj2 hj3
              exact hfirst j2 (by omega) (by omega)
            · intro t m htag hti hfe
              by_cases hti2 : t < i
              · rcases hinv3 t m htag hti2 hfe with h | h <;> left <;> omega
              · have hteq : t = i := by omega
                subst hteq
                rw [hfeI] at hfe
                cases hfe
                right
                omega
          | none =>
            rw [hext] at hj
            dsimp only at hj
            have hnotag := extractor_none_not_tag hbal hext
            split at hj
            · split at hj
              · exact hrec hnotag [] _ rfl j hj
              · exact hrec hnotag [] _ rfl j hj
            · exact hrec hnotag _ _ rfl j hj
        · rw [if_neg hscript] at hj
          have hnotag : ¬isTagAt lines i := fun htag =>
            hscript (tag_stripped hi htag).1
          split at hj
          · split at hj
            · exact hrec hnotag [] _ rfl j hj
            · exact hrec hnotag [] _ rfl j hj
          · exact hrec hnotag _ _ rfl j hj

instance isTagAt_dec (lines : List String) (i : Nat) : Decidable (isTagAt lines i) := by
  unfold isTagAt
  cases lines[i]? with
  | none => exact inferInstance
  | some l => exact inferInstance

/-- **C5** (`parseSchemaContent` + `parseSchemaForLuaScripts`): for every
schema text in which each `SCRIPT:` block tag (raw line starting with
`SCRIPT:`, non-empty name) is matched by a later `END_SCRIPT` terminator
line, no line lying strictly between a tag line and its matching
terminator is ever pushed into the command accumulator — `consumed`
records exactly the pushed line indices, and every token of every emitted
command derives from pushed lines, so parsing emits no command derived
from script body lines.  (The parse is taken with no template variables,
as in the claim; `parseSchemaContent` runs exactly this loop on
`splitLines content`.) -/
theorem claim_C5_script_bodies_not_parsed (content : String)
    (hbal : ∀ t, t < (splitLines content).length →
      isTagAt (splitLines content) t →
      (findEndScript (splitLines content) t).isSome) :
    ∀ j ∈ (parseLoopF (splitLines content) (splitLines content).length
        0 0 [] ⟨[], []⟩).consumed,
      ∀ t m, isTagAt (splitLines content) t →
        findEndScript (splitLines content) t = some m →
        ¬(t < j ∧ j < m) := by
  have hbal2 : ∀ t, isTagAt (splitLines content) t →
      (findEndScript (splitLines content) t).isSome := by
    intro t ht
    by_cases hlt : t < (splitLines content).length
    · exact hbal t hlt ht
    · unfold isTagAt at ht
      rw [List.getElem?_eq_none (by omega)] at ht
      exact absurd ht not_false
  intro j hj t m htag hfe
  rcases parseLoopF_safe (splitLines content) hbal2
      (splitLines content).length 0 0 [] ⟨[], []⟩
      (by omega) (Or.inl (by omega))
      (fun t2 m2 _ ht2 _ => absurd ht2 (by omega)) j hj with hmem | hsafe
  · cases hmem
  · exact hsafe t m htag hfe

/-- **C5 witness**: a concrete schema with one balanced script block;
line 3 (`SET a b;`) is consumed and lies in no block `(0, 2)`. -/
theorem claim_C5_witness : ¬(0 < 3 ∧ 3 < 2) :=
  claim_C5_script_bodies_not_parsed
    "SCRIPT: f\nreturn 1\nEND_SCRIPT\nSET a b;"
    (by decide) 3 (by decide) 0 2 (by decide) (by decide)

/-- **C7 witness**: stripping at a concrete comment position. -/
theorem claim_C7_witness :
    (parseSchemaContent ("SET a b" ++ "#" ++ "x;") []).commands
      = (parseSchemaContent "SET a b" []).commands :=
  claim_C7_comment_stripping.1 "SET a b" "x;" (by decide) (by decide) (by decide)

end RedisInit
